import Mathlib

/-!
Verification of the tgState request-serving pipeline.

The Go sources (src/control/control.go, src/utils/utils.go, src/conf/conf.go)
are shallowly embedded below.  Go strings are modelled as `List Char`, Go
`int64` as `Int` with the explicit `2^63` bounds of `strconv.ParseInt`,
the filesystem and the in-memory cache maps as explicit state, and the
external Telegram resolver / HTTP downloads as oracle parameters.
-/

set_option maxRecDepth 4000

namespace TgState

/-! ## Go string primitives (strings package), modelled on `List Char` -/

/-- Characters treated as white space by the model of `strings.TrimSpace`
(ASCII white space plus the two Latin-1 spaces recognised by `unicode.IsSpace`). -/
def isGoSpace (c : Char) : Bool :=
  c = ' ' || c = '\t' || c = '\n' || c = '\r' ||
  c = Char.ofNat 11 || c = Char.ofNat 12 ||
  c = Char.ofNat 133 || c = Char.ofNat 160

/-- Model of `strings.TrimSpace`. -/
def trimSpace (l : List Char) : List Char :=
  ((l.dropWhile isGoSpace).reverse.dropWhile isGoSpace).reverse

/-- Model of `strings.Split(s, ",")`. -/
def splitOnComma : List Char → List (List Char)
  | [] => [[]]
  | c :: cs =>
    match splitOnComma cs with
    | [] => [[]]
    | g :: gs => if c = ',' then [] :: g :: gs else (c :: g) :: gs

/-- Model of `strings.Index(ra, "-")` combined with the two slicings
`ra[:i]` and `ra[i+1:]`: returns the parts before and after the first dash,
or `none` when the string has no dash (`Index` returned `-1`). -/
def splitAtDash : List Char → Option (List Char × List Char)
  | [] => none
  | c :: cs =>
    if c = '-' then some ([], cs)
    else match splitAtDash cs with
      | none => none
      | some (a, b) => some (c :: a, b)

/-- Model of `strings.TrimPrefix`. -/
def goTrimPrefix (s pre : List Char) : List Char :=
  if pre.isPrefixOf s then s.drop pre.length else s

/-- Model of `strings.ReplaceAll(s, " ", "")`. -/
def removeSpaces (l : List Char) : List Char :=
  l.filter (fun c => c ≠ ' ')

/-! ## strconv.ParseInt (base 10, bitSize 64) -/

/-- Largest int64, the positive cutoff of `strconv.ParseInt(s, 10, 64)`. -/
def maxI64 : Nat := 9223372036854775807

/-- Digit-string accumulator of `strconv.ParseUint` (base 10). -/
def digitsValAux (acc : Nat) : List Char → Option Nat
  | [] => some acc
  | c :: cs => if c.isDigit then digitsValAux (acc * 10 + (c.toNat - 48)) cs else none

/-- Value of a non-empty decimal digit string; `none` on the empty string or
any non-digit character, as in `strconv.ParseUint(s, 10, 64)` before the
overflow check. -/
def digitsVal : List Char → Option Nat
  | [] => none
  | c :: cs => digitsValAux 0 (c :: cs)

/-- Model of `strconv.ParseInt(s, 10, 64)`: optional sign, decimal digits,
and the int64 range check (error outside `[-2^63, 2^63-1]`). -/
def parseIntGo (l : List Char) : Option Int :=
  match l with
  | [] => none
  | c :: rest =>
    if c = '+' then
      (digitsVal rest).bind fun n => if n ≤ maxI64 then some (n : Int) else none
    else if c = '-' then
      (digitsVal rest).bind fun n => if n ≤ maxI64 + 1 then some (-(n : Int)) else none
    else
      (digitsVal (c :: rest)).bind fun n => if n ≤ maxI64 then some (n : Int) else none

/-! ## The Range Parser (control.go: type httpRange, func parseRange) -/

/-- control.go `type httpRange struct { start, end, length int64 }`.
The Go field `end` is a Lean keyword and is rendered `endIdx`. -/
structure httpRange where
  start : Int
  endIdx : Int
  length : Int
deriving DecidableEq, Repr

/-- String literal `"bytes="` of parseRange. -/
def bytesLit : List Char := (r"bytes=").toList

/-- One trimmed, non-empty range spec, the body of the parseRange loop:
`-suffix`, `start-` and `start-end` forms with their validity checks. -/
def parseOne (size : Int) (t : List Char) : Option httpRange :=
  match splitAtDash t with
  | none => none
  | some (s0, e0) =>
    let sT := trimSpace s0
    let eT := trimSpace e0
    if sT = [] then
      match parseIntGo eT with
      | none => none
      | some i =>
        let i2 := if i > size then size else i
        some ⟨size - i2, size - 1, (size - 1) - (size - i2) + 1⟩
    else
      match parseIntGo sT with
      | none => none
      | some i =>
        if i ≥ size ∨ i < 0 then none
        else if eT = [] then some ⟨i, size - 1, (size - 1) - i + 1⟩
        else
          match parseIntGo eT with
          | none => none
          | some j =>
            if j ≥ size ∨ j < 0 then none
            else if j < i then none
            else some ⟨i, j, j - i + 1⟩

/-- The `for` loop of parseRange over the comma-separated specs, carrying the
accumulated `ranges` slice; the returned Bool is the `noOverlap` flag, and a
spec spanning the whole resource stops the loop (`break`). -/
def parseLoop (size : Int) (acc : List httpRange) :
    List (List Char) → Option (List httpRange × Bool)
  | [] => some (acc, false)
  | ra :: rest =>
    let t := trimSpace ra
    if t = [] then parseLoop size acc rest
    else
      match parseOne size t with
      | none => none
      | some r =>
        if r.start = 0 ∧ r.endIdx = size - 1 then some (acc ++ [r], true)
        else parseLoop size (acc ++ [r]) rest

/-- control.go `func parseRange(s string, size int64) ([]httpRange, error)`.
`none` models a non-nil error; `some rs` models `(rs, nil)` (the Go nil slice
for the empty header is modelled as `some []`). -/
def parseRange (s : List Char) (size : Int) : Option (List httpRange) :=
  if s = [] then some []
  else if bytesLit.isPrefixOf s then
    match parseLoop size [] (splitOnComma (s.drop 6)) with
    | none => none
    | some (rs, noOverlap) =>
      if noOverlap ∧ rs.length > 1 then some (rs.take 1) else some rs
  else none

/-- The ByteRange invariant of the spec: 0 ≤ start ≤ end ≤ size-1 and
length = end-start+1. -/
def rangeWithin (size : Int) (r : httpRange) : Prop :=
  0 ≤ r.start ∧ r.start ≤ r.endIdx ∧ r.endIdx ≤ size - 1 ∧
    r.length = r.endIdx - r.start + 1

/-- A side condition on one comma-split spec: when it is a suffix-form spec
(`-suffixLength`), its parsed length is at least 1.  The amended C4 holds for
headers whose suffix specs satisfy this. -/
def specSuffixOkB (ra : List Char) : Bool :=
  match splitAtDash (trimSpace ra) with
  | none => true
  | some (s0, e0) =>
    if trimSpace s0 = [] then
      match parseIntGo (trimSpace e0) with
      | some v => decide (1 ≤ v)
      | none => true
    else true

/-- Decimal rendering of a natural number, most significant digit first. -/
def repr10 (n : Nat) : List Char :=
  if h : n < 10 then [Char.ofNat (48 + n)]
  else repr10 (n / 10) ++ [Char.ofNat (48 + n % 10)]
decreasing_by exact Nat.div_lt_self (by omega) (by omega)


/-! ## Association lists: the model of the Go maps `map[string]string` / `map[string]int64` -/

section AList

variable {α : Type} {β : Type} [DecidableEq α]

/-- Map lookup, `m[k]`. -/
def lookupk : List (α × β) → α → Option β
  | [], _ => none
  | e :: t, k => if e.1 = k then some e.2 else lookupk t k

/-- Map deletion, `delete(m, k)`. -/
def delk : List (α × β) → α → List (α × β)
  | [], _ => []
  | e :: t, k => if e.1 = k then delk t k else e :: delk t k

/-- Map update, `m[k] = v`. -/
def setk (l : List (α × β)) (k : α) (v : β) : List (α × β) :=
  (k, v) :: delk l k

end AList

/-! ## Disk model: the set of file paths that currently exist -/

section Disk

variable {α : Type} [DecidableEq α]

/-- Model of `os.Remove(p)` on the set of existing paths (idempotent). -/
def removep : List α → α → List α
  | [], _ => []
  | x :: t, p => if x = p then removep t p else x :: removep t p

/-- Model of `os.Create(p)` on the set of existing paths (creates or truncates). -/
def insertp (d : List α) (p : α) : List α := p :: removep d p

end Disk

/-! ## The Cache Store (control.go: FileCache; duplicated verbatim as
utils.go FileCache with exported names) -/

/-- control.go FileCache: `files`, `lastAccess`, plus the set of paths that
exist on disk in the cache directory. -/
structure CacheState where
  files : List (List Char × List Char)
  lastAccess : List (List Char × Int)
  disk : List (List Char)
deriving DecidableEq

/-- The empty cache built by `getFileCache` at startup. -/
def initCache : CacheState := ⟨[], [], []⟩

/-- `filepath.Join(fc.cacheDir, fileID)` with `cacheDir = "file_cache"`. -/
def cachePath (id : List Char) : List Char := (r"file_cache/").toList ++ id

/-- Outcome oracle for one cold fetch: the Telegram resolver
(`utils.GetDownloadUrl`), `os.Create`, `http.Get` (status `none` is a
transport error) and `io.Copy`. -/
structure FetchEnv where
  resolve : List Char → Option (List Char)
  createOk : Bool
  getStatus : List Char → Option Nat
  copyOk : Bool

/-- Errors of `getCachedFile`, in source order of the return points. -/
inductive CacheErr where
  | resolveFailed
  | createFailed
  | transportFailed
  | badStatus (code : Nat)
  | copyFailed
deriving DecidableEq

/-- Result of one `getCachedFile` call: the returned value, the state after
the call, and whether the resolver (`GetDownloadUrl`) and the HTTP download
(`http.Get`) were invoked. -/
structure FetchRes where
  result : Except CacheErr (List Char)
  state : CacheState
  resolved : Bool
  downloaded : Bool

/-- The download branch of `getCachedFile` (control.go lines 72-111):
resolve, create the local file, stream the body, delete the partial file on
any failure, register the mapping on success. -/
def coldFetch (env : FetchEnv) (now : Int) (s : CacheState) (id : List Char) : FetchRes :=
  match env.resolve id with
  | none => ⟨.error .resolveFailed, s, true, false⟩
  | some url =>
    let p := cachePath id
    if env.createOk then
      let d1 := insertp s.disk p
      match env.getStatus url with
      | none => ⟨.error .transportFailed, { s with disk := removep d1 p }, true, true⟩
      | some code =>
        if code = 200 then
          if env.copyOk then
            ⟨.ok p,
              { files := setk s.files id p,
                lastAccess := setk s.lastAccess id now,
                disk := d1 }, true, true⟩
          else ⟨.error .copyFailed, { s with disk := removep d1 p }, true, true⟩
        else ⟨.error (.badStatus code), { s with disk := removep d1 p }, true, true⟩
    else ⟨.error .createFailed, s, true, false⟩

/-- control.go `func (fc *FileCache) getCachedFile(fileID string)`; the
identical `utils.FileCache.GetCachedFile` is the same function. -/
def getCachedFile (env : FetchEnv) (now : Int) (s : CacheState) (id : List Char) : FetchRes :=
  match lookupk s.files id with
  | some p =>
    if p ∈ s.disk then
      ⟨.ok p, { s with lastAccess := setk s.lastAccess id now }, false, false⟩
    else coldFetch env now s id
  | none => coldFetch env now s id

/-- A fully successful environment for one fetch of `id`. -/
def EnvSucceeds (env : FetchEnv) (id : List Char) : Prop :=
  env.createOk = true ∧ env.copyOk = true ∧
  ∃ url, env.resolve id = some url ∧ env.getStatus url = some 200

/-- control.go `func (fc *FileCache) cleanupFile(fileID string)`. -/
def cleanupFile (s : CacheState) (id : List Char) : CacheState :=
  match lookupk s.files id with
  | some p =>
    { files := delk s.files id,
      lastAccess := delk s.lastAccess id,
      disk := if p ≠ [] then removep s.disk p else s.disk }
  | none => s

/-- The collection pass of `periodicCleanup`: the `(fileID, filePath)` pairs
whose last access is older than `expire`, in `lastAccess` iteration order. -/
def doomedList (expire : Int) (files : List (List Char × List Char)) :
    List (List Char × Int) → List (List Char × List Char)
  | [] => []
  | e :: rest =>
    if e.2 < expire then
      match lookupk files e.1 with
      | some p => (e.1, p) :: doomedList expire files rest
      | none => doomedList expire files rest
    else doomedList expire files rest

/-- One pass of control.go `periodicCleanup` (the body of the ticker loop):
entries not accessed for 3600 seconds are deleted from disk and from both
maps. -/
def sweep (now : Int) (s : CacheState) : CacheState :=
  let doomed := doomedList (now - 3600) s.files s.lastAccess
  { files := doomed.foldl (fun m e => delk m e.1) s.files,
    lastAccess := doomed.foldl (fun m e => delk m e.1) s.lastAccess,
    disk := doomed.foldl (fun d e => removep d e.2) s.disk }

/-- One cache operation: a delivery fetch, an immediate invalidation
(`cleanupFile`), or a periodic sweep pass. -/
inductive CacheOp where
  | fetch (env : FetchEnv) (now : Int) (id : List Char)
  | invalidate (id : List Char)
  | sweepAt (now : Int)

/-- Apply one operation to the cache state. -/
def applyOp (s : CacheState) : CacheOp → CacheState
  | .fetch env now id => (getCachedFile env now s id).state
  | .invalidate id => cleanupFile s id
  | .sweepAt now => sweep now s

/-- Run a sequence of cache operations from a starting state. -/
def runOps (ops : List CacheOp) (s : CacheState) : CacheState :=
  ops.foldl applyOp s

/-- The CacheEntry invariant of the spec: an identifier is a key of the path map
iff a file exists on disk at its recorded path (which is always the path
derived from the identifier). -/
def CacheInv (s : CacheState) : Prop :=
  (∀ id p, lookupk s.files id = some p → p = cachePath id ∧ p ∈ s.disk) ∧
  (∀ p, p ∈ s.disk → ∃ id, lookupk s.files id = some p)

/-! ## The Delivery Handler (control.go: func D), classify-and-serve step -/

/-- conf.go `const FileRoute = "/d/"`. -/
def fileRouteLit : List Char := (r"/d/").toList

/-- The reserved manifest prefix checked by D. -/
def blobPrefixLit : List Char := (r"blob-").toList

/-- Literal `"video/"` of the content-type classification. -/
def videoLit : List Char := (r"video/").toList

/-- Header value `"bytes"`. -/
def bytesWordLit : List Char := (r"bytes").toList

/-- Header value `"none"`. -/
def noneWordLit : List Char := (r"none").toList

/-- The routing decision of D on the request path (control.go lines 239-256). -/
inductive Routed where
  | notFound
  | blob (id : List Char)
  | plain (id : List Char)
deriving DecidableEq

/-- control.go func D, steps 1-2: strip the route prefix, reject the empty
identifier, and send identifiers with the reserved prefix to the
blob-manifest path (`handleBlobFile`). -/
def routeD (path : List Char) : Routed :=
  let id := goTrimPrefix path fileRouteLit
  if id = [] then .notFound
  else if blobPrefixLit.isPrefixOf id then .blob id
  else .plain id

/-- The HTTP response assembled by the classify-and-serve step of D: final status,
the Accept-Ranges header if set, the Content-Range triple if set, the final
Content-Length value, the bytes written, and the delay in seconds of the
deferred `cleanupFile` goroutine if one is spawned. -/
structure ServeResult where
  status : Nat
  acceptRanges : Option (List Char)
  contentRange : Option (Int × Int × Int)
  contentLength : Int
  body : List Nat
  cleanupDelay : Option Nat
deriving DecidableEq

/-- control.go func D, step 4 (lines 290-356): serving an open cached file.
`contentType` is the result of `http.DetectContentType` on the first 512
bytes (an external collaborator of the spec), `rangeHeader` the Range header
of the request (empty list when absent), `content` the bytes of the cached file;
`fileSize` is its length as reported by `Stat`. -/
def serveFile (contentType rangeHeader : List Char) (content : List Nat) : ServeResult :=
  let fileSize : Int := (content.length : Int)
  let isVideo := videoLit.isPrefixOf contentType
  if isVideo then
    if rangeHeader = [] then
      ⟨200, some bytesWordLit, none, fileSize, content, none⟩
    else
      match parseRange rangeHeader fileSize with
      | none => ⟨200, some bytesWordLit, none, fileSize, content, none⟩
      | some rs =>
        match rs with
        | [ra] =>
          ⟨206, some bytesWordLit, some (ra.start, ra.endIdx, fileSize), ra.length,
            (content.drop ra.start.toNat).take ra.length.toNat,
            if ra.endIdx ≥ fileSize - 1 ∨ ra.endIdx ≥ fileSize - 1024 * 1024 then some 10
            else none⟩
        | _ => ⟨200, some bytesWordLit, none, fileSize, content, none⟩
  else ⟨200, some noneWordLit, none, fileSize, content, some 5⟩

/-- The effect of a delivery on the cache: the spawned goroutine calls
`cache.cleanupFile(id)` after the delay when one was scheduled, and the
cache is untouched otherwise. -/
def cacheAfterDelivery (res : ServeResult) (s : CacheState) (id : List Char) : CacheState :=
  match res.cleanupDelay with
  | some _ => cleanupFile s id
  | none => s

/-! ## The Blob Assembler (control.go: func handleBlobDownload) -/

/-- Oracle for the blob path: per chunk identifier, the resolver outcome of
each attempt (`GetDownloadUrl` may answer differently on retries); per URL,
the fetched body (`none` is an `http.Get` transport error); per body,
whether `io.Copy` to the client fails. -/
structure BlobEnv where
  resolveSeq : List Char → Nat → Option (List Char)
  fetch : List Char → Option (List Nat)
  copyFails : List Nat → Bool

/-- The inner retry loop of handleBlobDownload on one chunk: attempt `k`
follows a 5-second sleep whenever `k > 0`; the accumulated slept seconds are
returned with the URL.  The loop in the source has no bound; `fuel` caps the
number of attempts the model unrolls, and `none` means the loop is still
running after `fuel` attempts. -/
def resolveRetryAux (f : Nat → Option (List Char)) (slept k : Nat) :
    Nat → Option (List Char × Nat)
  | 0 => none
  | fuel + 1 =>
    match f k with
    | some u => some (u, slept)
    | none => resolveRetryAux f (slept + 5) (k + 1) fuel

/-- The retry loop started at attempt 0 with nothing slept. -/
def resolveRetry (f : Nat → Option (List Char)) (fuel : Nat) : Option (List Char × Nat) :=
  resolveRetryAux f 0 0 fuel

/-- Outcome of handleBlobDownload: the bytes written to the response before
the loop finished, aborted on `http.Get` error (the source also writes a 500
via `http.Error`), aborted on `io.Copy` error, or still inside a resolve
retry loop after `fuel` attempts. -/
inductive BlobOutcome where
  | done (body : List Nat)
  | httpFailed (body : List Nat)
  | copyFailed (body : List Nat)
  | stalled (body : List Nat)
deriving DecidableEq

/-- The chunk loop of handleBlobDownload over the remaining manifest lines,
carrying the bytes already written. -/
def blobLoop (env : BlobEnv) (fuel : Nat) : List (List Char) → List Nat → BlobOutcome
  | [], acc => .done acc
  | line :: rest, acc =>
    match resolveRetry (env.resolveSeq (removeSpaces line)) fuel with
    | none => .stalled acc
    | some (url, _) =>
      match env.fetch url with
      | none => .httpFailed acc
      | some bytes =>
        if env.copyFails bytes then .copyFailed acc
        else blobLoop env fuel rest (acc ++ bytes)

/-- control.go `func handleBlobDownload(w, r, lines []string, startLine int,
fileSize string)`; the `fileSize` parameter is unused in the source body. -/
def handleBlobDownload (env : BlobEnv) (fuel : Nat) (lines : List (List Char))
    (startLine : Nat) (fileSize : List Char) : BlobOutcome :=
  let _ := fileSize
  blobLoop env fuel (lines.drop startLine) []

/-- Modelled from the spec: `handleBlobFile` in control.go is an unimplemented
stub (its body is only a placeholder comment), so the manifest-delivery step
(spec 4.3 step 5 / 6: line 0 a magic marker, line 1 the declared filename,
line 2 optionally a size line carrying a fixed literal tag, remaining lines
the chunk identifiers, then stream via the Blob Assembler) is modelled here;
the unknown magic-marker and size-tag literals are parameters. -/
def manifestStart (sizeTag : List Char) (lines : List (List Char)) : Nat :=
  match lines.drop 2 with
  | l :: _ => if sizeTag.isPrefixOf l then 3 else 2
  | [] => 2

/-- Modelled from the spec: the blob-manifest delivery path routed to by D;
checks the magic marker, skips the filename and optional size lines, and
streams the listed chunks in order via handleBlobDownload.  `none` models a
rejected manifest. -/
def handleBlobFile (magic sizeTag : List Char) (env : BlobEnv) (fuel : Nat)
    (lines : List (List Char)) : Option BlobOutcome :=
  match lines with
  | m :: _ :: _ =>
    if m = magic then
      some (handleBlobDownload env fuel lines (manifestStart sizeTag lines) [])
    else none
  | _ => none

/-! ## Lemmas on the map and disk models -/

section AListLemmas

variable {α : Type} {β : Type} [DecidableEq α]

theorem lookupk_delk (l : List (α × β)) (k k' : α) :
    lookupk (delk l k) k' = if k' = k then none else lookupk l k' := by
  induction l with
  | nil => simp [delk, lookupk]
  | cons e t ih =>
    by_cases h : e.1 = k
    · simp only [delk, if_pos h]
      rw [ih]
      by_cases hk : k' = k
      · simp [hk]
      · have : e.1 ≠ k' := by rw [h]; exact fun hh => hk hh.symm
        simp [hk, lookupk, this]
    · simp only [delk, if_neg h]
      by_cases he : e.1 = k'
      · have hk : ¬ k' = k := by rw [← he]; exact h
        simp [lookupk, he, hk]
      · simp [lookupk, he, ih]

theorem lookupk_setk_self (l : List (α × β)) (k : α) (v : β) :
    lookupk (setk l k v) k = some v := by
  simp [setk, lookupk]

theorem lookupk_setk_ne (l : List (α × β)) (k k' : α) (v : β) (h : k' ≠ k) :
    lookupk (setk l k v) k' = lookupk l k' := by
  have hk : ¬ k = k' := fun hh => h hh.symm
  simp [setk, lookupk, hk, lookupk_delk, h]

theorem mem_delk {l : List (α × β)} {k : α} {e : α × β} (h : e ∈ delk l k) :
    e ∈ l ∧ e.1 ≠ k := by
  induction l with
  | nil => simp [delk] at h
  | cons x t ih =>
    by_cases hx : x.1 = k
    · simp only [delk, if_pos hx] at h
      exact ⟨List.mem_cons_of_mem _ (ih h).1, (ih h).2⟩
    · simp only [delk, if_neg hx] at h
      rcases List.mem_cons.mp h with h | h
      · exact ⟨by simp [h], by rw [h]; exact hx⟩
      · exact ⟨List.mem_cons_of_mem _ (ih h).1, (ih h).2⟩

theorem mem_setk {l : List (α × β)} {k k' : α} {v v' : β}
    (h : (k', v') ∈ setk l k v) :
    (k' = k ∧ v' = v) ∨ ((k', v') ∈ l ∧ k' ≠ k) := by
  rcases List.mem_cons.mp h with h | h
  · left
    exact ⟨(Prod.ext_iff.mp h).1, (Prod.ext_iff.mp h).2⟩
  · right; exact mem_delk h

theorem lookupk_mem {l : List (α × β)} {k : α} {v : β}
    (h : lookupk l k = some v) : (k, v) ∈ l := by
  induction l with
  | nil => simp [lookupk] at h
  | cons e t ih =>
    by_cases he : e.1 = k
    · simp only [lookupk, if_pos he] at h
      have he2 : e = (k, v) := by
        cases e
        simp_all
      rw [← he2]
      exact List.mem_cons_self _ _
    · simp only [lookupk, if_neg he] at h
      exact List.mem_cons_of_mem _ (ih h)

end AListLemmas

section DiskLemmas

variable {α : Type} [DecidableEq α]

theorem mem_removep {d : List α} {p q : α} :
    q ∈ removep d p ↔ q ∈ d ∧ q ≠ p := by
  induction d with
  | nil => simp [removep]
  | cons x t ih =>
    by_cases hx : x = p
    · simp only [removep, if_pos hx, ih, List.mem_cons]
      subst hx
      constructor
      · exact fun h => ⟨Or.inr h.1, h.2⟩
      · rintro ⟨h1 | h1, h2⟩
        · exact absurd h1 h2
        · exact ⟨h1, h2⟩
    · simp only [removep, if_neg hx, List.mem_cons, ih]
      constructor
      · rintro (h | ⟨h1, h2⟩)
        · exact ⟨Or.inl h, by rw [h]; exact hx⟩
        · exact ⟨Or.inr h1, h2⟩
      · rintro ⟨h | h, h2⟩
        · exact Or.inl h
        · exact Or.inr ⟨h, h2⟩

theorem mem_insertp {d : List α} {p q : α} :
    q ∈ insertp d p ↔ q = p ∨ q ∈ d := by
  simp only [insertp, List.mem_cons, mem_removep]
  constructor
  · rintro (h | ⟨h, _⟩)
    · exact Or.inl h
    · exact Or.inr h
  · rintro (h | h)
    · exact Or.inl h
    · by_cases hq : q = p
      · exact Or.inl hq
      · exact Or.inr ⟨h, hq⟩

end DiskLemmas

section FoldLemmas

variable {β : Type}

/-- Deleting a batch of keys: a key not in the batch keeps its binding. -/
theorem lookupk_foldl_delk_notin (ds : List (List Char × List Char))
    (m : List (List Char × β)) (k : List Char) (h : ∀ e ∈ ds, e.1 ≠ k) :
    lookupk (ds.foldl (fun m e => delk m e.1) m) k = lookupk m k := by
  induction ds generalizing m with
  | nil => rfl
  | cons e t ih =>
    simp only [List.foldl_cons]
    rw [ih _ fun x hx => h x (List.mem_cons_of_mem _ hx)]
    rw [lookupk_delk]
    have hne := h e (List.mem_cons_self _ _)
    rw [if_neg (show ¬ k = e.1 from fun hh => hne hh.symm)]

/-- Deleting a batch of keys: an absent key stays absent. -/
theorem lookupk_foldl_delk_none (ds : List (List Char × List Char))
    (m : List (List Char × β)) (k : List Char) (h : lookupk m k = none) :
    lookupk (ds.foldl (fun m e => delk m e.1) m) k = none := by
  induction ds generalizing m with
  | nil => exact h
  | cons e t ih =>
    simp only [List.foldl_cons]
    refine ih _ ?_
    rw [lookupk_delk]
    by_cases hk : k = e.1 <;> simp [hk, h]

/-- Deleting a batch of keys: a key of the batch loses its binding. -/
theorem lookupk_foldl_delk_in (ds : List (List Char × List Char))
    (m : List (List Char × β)) (k : List Char) (h : ∃ e ∈ ds, e.1 = k) :
    lookupk (ds.foldl (fun m e => delk m e.1) m) k = none := by
  induction ds generalizing m with
  | nil => simp at h
  | cons e t ih =>
    simp only [List.foldl_cons]
    rcases h with ⟨x, hx, hk⟩
    rcases List.mem_cons.mp hx with rfl | hx
    · exact lookupk_foldl_delk_none _ _ _ (by rw [lookupk_delk, if_pos hk.symm])
    · exact ih _ ⟨x, hx, hk⟩

/-- A surviving binding was present before the batch delete and its key is
not in the batch. -/
theorem lookupk_foldl_delk_some (ds : List (List Char × List Char))
    (m : List (List Char × β)) (k : List Char) (v : β)
    (h : lookupk (ds.foldl (fun m e => delk m e.1) m) k = some v) :
    lookupk m k = some v ∧ ∀ e ∈ ds, e.1 ≠ k := by
  by_cases hin : ∃ e ∈ ds, e.1 = k
  · rw [lookupk_foldl_delk_in ds m k hin] at h
    exact absurd h (by simp)
  · push_neg at hin
    rw [lookupk_foldl_delk_notin ds m k hin] at h
    exact ⟨h, hin⟩

/-- Membership after a batch of `os.Remove` calls. -/
theorem mem_foldl_removep (ds : List (List Char × List Char))
    (d : List (List Char)) (q : List Char) :
    q ∈ ds.foldl (fun d e => removep d e.2) d ↔ q ∈ d ∧ ∀ e ∈ ds, q ≠ e.2 := by
  induction ds generalizing d with
  | nil => simp
  | cons e t ih =>
    simp only [List.foldl_cons, ih, mem_removep, List.mem_cons]
    constructor
    · rintro ⟨⟨h1, h2⟩, h3⟩
      refine ⟨h1, ?_⟩
      rintro x (rfl | hx)
      · exact h2
      · exact h3 x hx
    · rintro ⟨h1, h2⟩
      exact ⟨⟨h1, h2 e (Or.inl rfl)⟩, fun x hx => h2 x (Or.inr hx)⟩

/-- Every collected pair of the sweep is a live, expired binding. -/
theorem mem_doomedList {expire : Int} {files : List (List Char × List Char)}
    {la : List (List Char × Int)} {e : List Char × List Char}
    (h : e ∈ doomedList expire files la) :
    (∃ v, (e.1, v) ∈ la ∧ v < expire) ∧ lookupk files e.1 = some e.2 := by
  induction la with
  | nil => simp [doomedList] at h
  | cons x t ih =>
    by_cases hx : x.2 < expire
    · simp only [doomedList, if_pos hx] at h
      split at h
      case _ p hl =>
        rcases List.mem_cons.mp h with h | h
        · subst h
          exact ⟨⟨x.2, by simp, hx⟩, hl⟩
        · rcases ih h with ⟨⟨v, hv, hve⟩, h2⟩
          exact ⟨⟨v, List.mem_cons_of_mem _ hv, hve⟩, h2⟩
      case _ hl =>
        rcases ih h with ⟨⟨v, hv, hve⟩, h2⟩
        exact ⟨⟨v, List.mem_cons_of_mem _ hv, hve⟩, h2⟩
    · simp only [doomedList, if_neg hx] at h
      rcases ih h with ⟨⟨v, hv, hve⟩, h2⟩
      exact ⟨⟨v, List.mem_cons_of_mem _ hv, hve⟩, h2⟩

/-- An expired live binding is collected by the sweep. -/
theorem doomedList_mem {expire : Int} {files : List (List Char × List Char)}
    {la : List (List Char × Int)} {k : List Char} {v : Int} {p : List Char}
    (hla : (k, v) ∈ la) (hv : v < expire) (hf : lookupk files k = some p) :
    (k, p) ∈ doomedList expire files la := by
  induction la with
  | nil => simp at hla
  | cons x t ih =>
    rcases List.mem_cons.mp hla with h | h
    · have hx : x.2 < expire := by rw [← h]; exact hv
      have hx1 : x.1 = k := by rw [← h]
      simp only [doomedList, if_pos hx, hx1, hf]
      exact List.mem_cons_self _ _
    · by_cases hx : x.2 < expire
      · simp only [doomedList, if_pos hx]
        split
        · exact List.mem_cons_of_mem _ (ih h)
        · exact ih h
      · simp only [doomedList, if_neg hx]
        exact ih h

end FoldLemmas

/-- The cache path construction is injective. -/
theorem cachePath_inj {a b : List Char} (h : cachePath a = cachePath b) : a = b :=
  List.append_cancel_left h

/-- Cache paths are never the empty string. -/
theorem cachePath_ne_nil (a : List Char) : cachePath a ≠ [] := by
  simp [cachePath]

/-! ## Preservation of the cache invariant -/

/-- After a failed download the partial file is removed again: the states at
the `os.Remove(filePath)` return points keep the invariant. -/
theorem cacheInv_partial {s : CacheState} {id : List Char} (h : CacheInv s)
    (hid : lookupk s.files id = none) :
    CacheInv { s with
      disk := removep (insertp s.disk (cachePath id)) (cachePath id) } := by
  constructor
  · intro id₂ p₂ hl
    have hi := h.1 id₂ p₂ hl
    refine ⟨hi.1, mem_removep.mpr ⟨mem_insertp.mpr (Or.inr hi.2), ?_⟩⟩
    rw [hi.1]
    intro hcp
    have he : id₂ = id := cachePath_inj hcp
    subst he
    rw [hid] at hl
    cases hl
  · intro q hq
    have hq1 := (mem_removep.mp hq).1
    rcases mem_insertp.mp hq1 with rfl | hq2
    · exact absurd rfl (mem_removep.mp hq).2
    · exact h.2 q hq2

/-- A successful download registers the mapping for the file it just wrote:
the success state of `getCachedFile` keeps the invariant. -/
theorem cacheInv_registered {s : CacheState} {id : List Char} (now : Int)
    (h : CacheInv s) (hid : lookupk s.files id = none) :
    CacheInv ⟨setk s.files id (cachePath id), setk s.lastAccess id now,
      insertp s.disk (cachePath id)⟩ := by
  constructor
  · intro id₂ p₂ hl
    by_cases he : id₂ = id
    · subst he
      rw [lookupk_setk_self] at hl
      cases hl
      exact ⟨rfl, mem_insertp.mpr (Or.inl rfl)⟩
    · rw [lookupk_setk_ne _ _ _ _ he] at hl
      have hi := h.1 id₂ p₂ hl
      exact ⟨hi.1, mem_insertp.mpr (Or.inr hi.2)⟩
  · intro q hq
    rcases mem_insertp.mp hq with rfl | hq2
    · exact ⟨id, by rw [lookupk_setk_self]⟩
    · rcases h.2 q hq2 with ⟨id₂, hl⟩
      have hne : id₂ ≠ id := by
        rintro rfl
        rw [hid] at hl
        cases hl
      exact ⟨id₂, by rw [lookupk_setk_ne _ _ _ _ hne]; exact hl⟩

/-- The download branch keeps the invariant whatever the oracle answers. -/
theorem cacheInv_coldFetch (env : FetchEnv) (now : Int) (s : CacheState)
    (id : List Char) (h : CacheInv s) (hid : lookupk s.files id = none) :
    CacheInv (coldFetch env now s id).state := by
  unfold coldFetch
  cases hr : env.resolve id with
  | none => exact h
  | some url =>
    cases hc : env.createOk with
    | false => simpa using h
    | true =>
      simp only [if_true]
      cases hg : env.getStatus url with
      | none => exact cacheInv_partial h hid
      | some code =>
        dsimp only
        by_cases h200 : code = 200
        · rw [if_pos h200]
          cases hcp : env.copyOk with
          | false => simpa using cacheInv_partial h hid
          | true => simpa using cacheInv_registered now h hid
        · rw [if_neg h200]
          exact cacheInv_partial h hid

/-- `getCachedFile` keeps the invariant. -/
theorem cacheInv_getCachedFile (env : FetchEnv) (now : Int) (s : CacheState)
    (id : List Char) (h : CacheInv s) :
    CacheInv (getCachedFile env now s id).state := by
  unfold getCachedFile
  cases hlk : lookupk s.files id with
  | some p =>
    have hp := h.1 id p hlk
    dsimp only
    rw [if_pos hp.2]
    exact ⟨h.1, h.2⟩
  | none => exact cacheInv_coldFetch env now s id h hlk

/-- `cleanupFile` keeps the invariant. -/
theorem cacheInv_cleanupFile (s : CacheState) (id : List Char) (h : CacheInv s) :
    CacheInv (cleanupFile s id) := by
  unfold cleanupFile
  cases hlk : lookupk s.files id with
  | none => exact h
  | some p =>
    have hp := h.1 id p hlk
    dsimp only
    rw [if_pos (show p ≠ [] by rw [hp.1]; exact cachePath_ne_nil id)]
    constructor
    · intro id₂ p₂ hl
      rw [lookupk_delk] at hl
      by_cases he : id₂ = id
      · rw [if_pos he] at hl; cases hl
      · rw [if_neg he] at hl
        have hi := h.1 id₂ p₂ hl
        refine ⟨hi.1, mem_removep.mpr ⟨hi.2, ?_⟩⟩
        rw [hi.1, hp.1]
        intro hc
        exact he (cachePath_inj hc)
    · intro q hq
      have hq' := mem_removep.mp hq
      rcases h.2 q hq'.1 with ⟨id₂, hl⟩
      have hne : id₂ ≠ id := by
        rintro rfl
        rw [hlk] at hl
        injection hl with hh
        exact hq'.2 hh.symm
      exact ⟨id₂, by rw [lookupk_delk, if_neg hne]; exact hl⟩

/-- One sweep pass keeps the invariant. -/
theorem cacheInv_sweep (now : Int) (s : CacheState) (h : CacheInv s) :
    CacheInv (sweep now s) := by
  unfold sweep
  constructor
  · intro id₂ p₂ hl
    obtain ⟨hl', hnotin⟩ := lookupk_foldl_delk_some _ _ _ _ hl
    have hi := h.1 id₂ p₂ hl'
    refine ⟨hi.1, (mem_foldl_removep _ _ _).mpr ⟨hi.2, ?_⟩⟩
    intro e he
    have hdm := mem_doomedList he
    have he2 : e.2 = cachePath e.1 := (h.1 e.1 e.2 hdm.2).1
    rw [hi.1, he2]
    intro hc
    exact hnotin e he (cachePath_inj hc).symm
  · intro q hq
    obtain ⟨hqd, hnot⟩ := (mem_foldl_removep _ _ _).mp hq
    rcases h.2 q hqd with ⟨id₃, hl⟩
    have hni : ∀ e ∈ doomedList (now - 3600) s.files s.lastAccess, e.1 ≠ id₃ := by
      intro e he hc
      have hdm := mem_doomedList he
      rw [hc, hl] at hdm
      injection hdm.2 with hh
      exact hnot e he hh
    exact ⟨id₃, by rw [lookupk_foldl_delk_notin _ _ _ hni]; exact hl⟩

/-- Every cache operation keeps the invariant. -/
theorem cacheInv_applyOp (s : CacheState) (op : CacheOp) (h : CacheInv s) :
    CacheInv (applyOp s op) := by
  cases op with
  | fetch env now id => exact cacheInv_getCachedFile env now s id h
  | invalidate id => exact cacheInv_cleanupFile s id h
  | sweepAt now => exact cacheInv_sweep now s h

/-- Any operation sequence keeps the invariant. -/
theorem cacheInv_runOps (ops : List CacheOp) (s : CacheState) (h : CacheInv s) :
    CacheInv (runOps ops s) := by
  induction ops generalizing s with
  | nil => exact h
  | cons op t ih => exact ih _ (cacheInv_applyOp s op h)

/-- The empty startup cache satisfies the invariant. -/
theorem cacheInv_init : CacheInv initCache := by
  constructor
  · intro id p hl
    simp [initCache, lookupk] at hl
  · intro p hp
    simp [initCache] at hp

/-- C2: for every sequence of cache operations (getOrFetch with any resolver
and download outcome, invalidate, sweep), after each operation completes an
identifier is a key of the in-memory path map iff a file exists on disk at
its recorded path; in particular a getOrFetch that fails mid-download leaves
no mapping pointing at a deleted file, because failed fetches never register
a mapping and the partial file is removed. -/
theorem c2_cache_map_disk_invariant (ops : List CacheOp) :
    CacheInv (runOps ops initCache) :=
  cacheInv_runOps ops initCache cacheInv_init

/-! ## Evaluation lemmas for getCachedFile -/

/-- A live mapping whose file exists is a cache hit: refresh the timestamp,
return the path, and touch neither resolver nor network. -/
theorem getCachedFile_hit (env : FetchEnv) (now : Int) (s : CacheState)
    (id p : List Char) (hl : lookupk s.files id = some p) (hd : p ∈ s.disk) :
    getCachedFile env now s id =
      ⟨.ok p, { s with lastAccess := setk s.lastAccess id now }, false, false⟩ := by
  unfold getCachedFile
  rw [hl]
  dsimp only
  rw [if_pos hd]

/-- Without a live mapping the call goes to the download branch. -/
theorem getCachedFile_cold (env : FetchEnv) (now : Int) (s : CacheState)
    (id : List Char) (h : lookupk s.files id = none) :
    getCachedFile env now s id = coldFetch env now s id := by
  unfold getCachedFile
  rw [h]

/-- Value of the download branch when everything succeeds. -/
theorem coldFetch_success (env : FetchEnv) (now : Int) (s : CacheState)
    (id : List Char) (h : EnvSucceeds env id) :
    coldFetch env now s id =
      ⟨.ok (cachePath id),
        ⟨setk s.files id (cachePath id), setk s.lastAccess id now,
          insertp s.disk (cachePath id)⟩, true, true⟩ := by
  obtain ⟨hc, hcp, url, hr, hg⟩ := h
  unfold coldFetch
  rw [hr]
  dsimp only
  rw [if_pos hc, hg]
  dsimp only
  rw [if_pos rfl, if_pos hcp]

/-- C6: on the cold-fetch path, a transport error, a non-success status or a
mid-copy error deletes the partial file and fails without registering a
mapping or timestamp; a successful download registers mapping and timestamp
and returns the local path. -/
theorem c6_cold_fetch_error_handling (env : FetchEnv) (now : Int)
    (s : CacheState) (id url : List Char)
    (hid : lookupk s.files id = none)
    (hr : env.resolve id = some url)
    (hc : env.createOk = true) :
    (env.getStatus url = none →
      (getCachedFile env now s id).result = .error .transportFailed ∧
      (getCachedFile env now s id).state.files = s.files ∧
      (getCachedFile env now s id).state.lastAccess = s.lastAccess ∧
      cachePath id ∉ (getCachedFile env now s id).state.disk) ∧
    (∀ code, code ≠ 200 → env.getStatus url = some code →
      (getCachedFile env now s id).result = .error (.badStatus code) ∧
      (getCachedFile env now s id).state.files = s.files ∧
      (getCachedFile env now s id).state.lastAccess = s.lastAccess ∧
      cachePath id ∉ (getCachedFile env now s id).state.disk) ∧
    (env.getStatus url = some 200 → env.copyOk = false →
      (getCachedFile env now s id).result = .error .copyFailed ∧
      (getCachedFile env now s id).state.files = s.files ∧
      (getCachedFile env now s id).state.lastAccess = s.lastAccess ∧
      cachePath id ∉ (getCachedFile env now s id).state.disk) ∧
    (env.getStatus url = some 200 → env.copyOk = true →
      (getCachedFile env now s id).result = .ok (cachePath id) ∧
      lookupk (getCachedFile env now s id).state.files id = some (cachePath id) ∧
      lookupk (getCachedFile env now s id).state.lastAccess id = some now ∧
      cachePath id ∈ (getCachedFile env now s id).state.disk) := by
  rw [getCachedFile_cold env now s id hid]
  unfold coldFetch
  rw [hr]
  dsimp only
  rw [if_pos hc]
  refine ⟨?_, ?_, ?_, ?_⟩
  · intro hg
    rw [hg]
    refine ⟨rfl, rfl, rfl, ?_⟩
    intro hmem
    exact (mem_removep.mp hmem).2 rfl
  · intro code hne hg
    rw [hg]
    dsimp only
    rw [if_neg hne]
    refine ⟨rfl, rfl, rfl, ?_⟩
    intro hmem
    exact (mem_removep.mp hmem).2 rfl
  · intro hg hcp
    rw [hg]
    dsimp only
    rw [if_pos rfl, hcp]
    refine ⟨rfl, rfl, rfl, ?_⟩
    intro hmem
    exact (mem_removep.mp hmem).2 rfl
  · intro hg hcp
    rw [hg]
    dsimp only
    rw [if_pos rfl, hcp]
    exact ⟨rfl, lookupk_setk_self _ _ _, lookupk_setk_self _ _ _,
      mem_insertp.mpr (Or.inl rfl)⟩

/-! ## Cache hit and expiry behaviour (C5) -/

/-- A sweep whose expiry bound does not pass the last access of the entry
leaves its mapping, timestamp and file alone: the survival facts for the
freshly registered state of a successful fetch. -/
theorem sweep_keeps_fresh (tSw t₀ : Int) (s₀ : CacheState) (id : List Char)
    (hInv : CacheInv s₀) (hsw : tSw - 3600 ≤ t₀) :
    let s₁ : CacheState :=
      ⟨setk s₀.files id (cachePath id), setk s₀.lastAccess id t₀,
        insertp s₀.disk (cachePath id)⟩
    lookupk (sweep tSw s₁).files id = some (cachePath id) ∧
    cachePath id ∈ (sweep tSw s₁).disk ∧
    lookupk (sweep tSw s₁).lastAccess id = some t₀ := by
  intro s₁
  have hdoomed : ∀ e ∈ doomedList (tSw - 3600) s₁.files s₁.lastAccess,
      e.1 ≠ id := by
    intro e he hc
    rcases mem_doomedList he with ⟨⟨v, hv, hve⟩, _⟩
    rw [hc] at hv
    rcases mem_setk hv with ⟨_, rfl⟩ | ⟨_, hne⟩
    · omega
    · exact hne rfl
  refine ⟨?_, ?_, ?_⟩
  · rw [show (sweep tSw s₁).files =
      (doomedList (tSw - 3600) s₁.files s₁.lastAccess).foldl
        (fun m e => delk m e.1) s₁.files from rfl]
    rw [lookupk_foldl_delk_notin _ _ _ hdoomed]
    exact lookupk_setk_self _ _ _
  · rw [show (sweep tSw s₁).disk =
      (doomedList (tSw - 3600) s₁.files s₁.lastAccess).foldl
        (fun d e => removep d e.2) s₁.disk from rfl]
    rw [mem_foldl_removep]
    refine ⟨mem_insertp.mpr (Or.inl rfl), ?_⟩
    intro e he
    have hne := hdoomed e he
    have hfe := (mem_doomedList he).2
    rw [show s₁.files = setk s₀.files id (cachePath id) from rfl,
      lookupk_setk_ne _ _ _ _ hne] at hfe
    have hpath := (hInv.1 e.1 e.2 hfe).1
    rw [hpath]
    intro hc
    exact hne (cachePath_inj hc).symm
  · rw [show (sweep tSw s₁).lastAccess =
      (doomedList (tSw - 3600) s₁.files s₁.lastAccess).foldl
        (fun m e => delk m e.1) s₁.lastAccess from rfl]
    rw [lookupk_foldl_delk_notin _ _ _ hdoomed]
    exact lookupk_setk_self _ _ _

/-- A sweep whose expiry bound passes the last access of the entry evicts the
entry and deletes its file, for a state whose timestamp map was just
refreshed by a hit. -/
theorem sweep_evicts (t₂ t₁ : Int) (s : CacheState) (id p : List Char)
    (hf : lookupk s.files id = some p)
    (hla : lookupk s.lastAccess id = some t₁)
    (hsw : t₁ < t₂ - 3600) :
    lookupk (sweep t₂ s).files id = none ∧ p ∉ (sweep t₂ s).disk := by
  have hmem : (id, p) ∈ doomedList (t₂ - 3600) s.files s.lastAccess :=
    doomedList_mem (lookupk_mem hla) hsw hf
  constructor
  · exact lookupk_foldl_delk_in _ _ _ ⟨(id, p), hmem, rfl⟩
  · intro hq
    rw [show (sweep t₂ s).disk =
      (doomedList (t₂ - 3600) s.files s.lastAccess).foldl
        (fun d e => removep d e.2) s.disk from rfl] at hq
    exact ((mem_foldl_removep _ _ _).mp hq).2 (id, p) hmem rfl

/-- C5: a successful fetch followed, before the inactivity threshold, by a
benign sweep and a second fetch is a cache hit (same path, no resolver call,
no download, only the timestamp refreshed); once the threshold passes and a
sweep runs, the entry and its file are gone and the next fetch downloads
afresh. -/
theorem c5_cache_hit_then_expiry
    (env₁ env₂ env₃ : FetchEnv) (t₀ tSw t₁ t₂ t₃ : Int)
    (s₀ : CacheState) (id : List Char)
    (hInv : CacheInv s₀)
    (hid : lookupk s₀.files id = none)
    (h1 : EnvSucceeds env₁ id)
    (h3 : EnvSucceeds env₃ id)
    (hsw1 : tSw - 3600 ≤ t₀)
    (hsw2 : t₁ < t₂ - 3600) :
    let r₁ := getCachedFile env₁ t₀ s₀ id
    let sA := sweep tSw r₁.state
    let r₂ := getCachedFile env₂ t₁ sA id
    let sB := sweep t₂ r₂.state
    let r₃ := getCachedFile env₃ t₃ sB id
    (r₁.result = .ok (cachePath id) ∧ r₁.resolved = true ∧ r₁.downloaded = true) ∧
    (r₂.result = .ok (cachePath id) ∧ r₂.resolved = false ∧ r₂.downloaded = false ∧
      r₂.state.files = sA.files ∧ r₂.state.disk = sA.disk ∧
      r₂.state.lastAccess = setk sA.lastAccess id t₁) ∧
    (lookupk sB.files id = none ∧ cachePath id ∉ sB.disk) ∧
    (r₃.result = .ok (cachePath id) ∧ r₃.resolved = true ∧ r₃.downloaded = true) := by
  intro r₁ sA r₂ sB r₃
  have hr₁ : r₁ = ⟨.ok (cachePath id),
      ⟨setk s₀.files id (cachePath id), setk s₀.lastAccess id t₀,
        insertp s₀.disk (cachePath id)⟩, true, true⟩ := by
    show getCachedFile env₁ t₀ s₀ id = _
    rw [getCachedFile_cold _ _ _ _ hid, coldFetch_success _ _ _ _ h1]
  have hkeep := sweep_keeps_fresh tSw t₀ s₀ id hInv hsw1
  have hsA : sA = sweep tSw r₁.state := rfl
  rw [hr₁] at hsA
  have hfidA : lookupk sA.files id = some (cachePath id) := by
    rw [hsA]; exact hkeep.1
  have hdiskA : cachePath id ∈ sA.disk := by
    rw [hsA]; exact hkeep.2.1
  have hr₂ : r₂ = ⟨.ok (cachePath id),
      { sA with lastAccess := setk sA.lastAccess id t₁ }, false, false⟩ := by
    show getCachedFile env₂ t₁ sA id = _
    exact getCachedFile_hit _ _ _ _ _ hfidA hdiskA
  have hfid₂ : lookupk r₂.state.files id = some (cachePath id) := by
    rw [hr₂]; exact hfidA
  have hla₂ : lookupk r₂.state.lastAccess id = some t₁ := by
    rw [hr₂]; exact lookupk_setk_self _ _ _
  have hev := sweep_evicts t₂ t₁ r₂.state id (cachePath id) hfid₂ hla₂ hsw2
  have hr₃ : r₃ = ⟨.ok (cachePath id),
      ⟨setk sB.files id (cachePath id), setk sB.lastAccess id t₃,
        insertp sB.disk (cachePath id)⟩, true, true⟩ := by
    show getCachedFile env₃ t₃ sB id = _
    rw [getCachedFile_cold _ _ _ _ hev.1, coldFetch_success _ _ _ _ h3]
  refine ⟨?_, ?_, ?_, ?_⟩
  · rw [hr₁]; exact ⟨rfl, rfl, rfl⟩
  · rw [hr₂]; exact ⟨rfl, rfl, rfl, rfl, rfl, rfl⟩
  · exact hev
  · rw [hr₃]; exact ⟨rfl, rfl, rfl⟩

/-! ## Decimal rendering of naturals, to quantify over numeric header fields -/

theorem digitChar_isDigit {d : Nat} (h : d < 10) :
    (Char.ofNat (48 + d)).isDigit = true := by
  interval_cases d <;> decide

theorem digitChar_toNat {d : Nat} (h : d < 10) :
    (Char.ofNat (48 + d)).toNat = 48 + d := by
  interval_cases d <;> decide

theorem repr10_digits (n : Nat) : ∀ c ∈ repr10 n, c.isDigit = true := by
  induction n using Nat.strong_induction_on with
  | _ n ih =>
    intro c hc
    rw [repr10] at hc
    by_cases h : n < 10
    · rw [dif_pos h] at hc
      rcases List.mem_singleton.mp hc with rfl
      exact digitChar_isDigit h
    · rw [dif_neg h] at hc
      rcases List.mem_append.mp hc with hc | hc
      · exact ih (n / 10) (Nat.div_lt_self (by omega) (by omega)) c hc
      · rcases List.mem_singleton.mp hc with rfl
        exact digitChar_isDigit (Nat.mod_lt _ (by omega))

theorem repr10_ne_nil (n : Nat) : repr10 n ≠ [] := by
  rw [repr10]
  by_cases h : n < 10
  · rw [dif_pos h]; simp
  · rw [dif_neg h]; simp

theorem digitsValAux_append (acc : Nat) (l₁ l₂ : List Char) :
    digitsValAux acc (l₁ ++ l₂) =
      (digitsValAux acc l₁).bind fun m => digitsValAux m l₂ := by
  induction l₁ generalizing acc with
  | nil => rfl
  | cons c t ih =>
    by_cases h : c.isDigit
    · simp only [List.cons_append, digitsValAux, if_pos h]
      exact ih _
    · simp only [List.cons_append, digitsValAux, if_neg h, Option.none_bind]

theorem digitsValAux_repr10 (n : Nat) :
    ∀ acc, digitsValAux acc (repr10 n) =
      some (acc * 10 ^ (repr10 n).length + n) := by
  induction n using Nat.strong_induction_on with
  | _ n ih =>
    intro acc
    rw [repr10]
    by_cases h : n < 10
    · rw [dif_pos h]
      simp only [digitsValAux, if_pos (digitChar_isDigit h), digitChar_toNat h]
      simp only [List.length_singleton, pow_one]
      congr 1
      omega
    · rw [dif_neg h]
      rw [digitsValAux_append, ih (n / 10) (Nat.div_lt_self (by omega) (by omega))]
      have hd : n % 10 < 10 := Nat.mod_lt _ (by omega)
      simp only [Option.some_bind, digitsValAux,
        if_pos (digitChar_isDigit hd), digitChar_toNat hd]
      rw [List.length_append, List.length_singleton, pow_succ]
      have h48 : 48 + n % 10 - 48 = n % 10 := by omega
      rw [h48]
      have h1 : n / 10 * 10 + n % 10 = n := by omega
      congr 1
      calc (acc * 10 ^ (repr10 (n / 10)).length + n / 10) * 10 + n % 10
          = acc * (10 ^ (repr10 (n / 10)).length * 10) + (n / 10 * 10 + n % 10) := by
            ring
        _ = acc * (10 ^ (repr10 (n / 10)).length * 10) + n := by rw [h1]

theorem digitsVal_repr10 (n : Nat) : digitsVal (repr10 n) = some n := by
  rcases hr : repr10 n with _ | ⟨c, cs⟩
  · exact absurd hr (repr10_ne_nil n)
  · show digitsValAux 0 (c :: cs) = some n
    rw [← hr, digitsValAux_repr10 n 0]
    simp

theorem isDigit_ne_plus {c : Char} (h : c.isDigit = true) : ¬ c = '+' := by
  rintro rfl; exact absurd h (by decide)

theorem isDigit_ne_minus {c : Char} (h : c.isDigit = true) : ¬ c = '-' := by
  rintro rfl; exact absurd h (by decide)

theorem isDigit_ne_comma {c : Char} (h : c.isDigit = true) : ¬ c = ',' := by
  rintro rfl; exact absurd h (by decide)

theorem isDigit_not_space {c : Char} (h : c.isDigit = true) :
    isGoSpace c = false := by
  cases hsp : isGoSpace c with
  | false => rfl
  | true =>
    exfalso
    simp only [isGoSpace, Bool.or_eq_true, decide_eq_true_eq] at hsp
    rcases hsp with ((((((hc | hc) | hc) | hc) | hc) | hc) | hc) | hc <;>
      (subst hc; exact absurd h (by decide))

/-- parseIntGo inverts the decimal rendering, up to the int64 bound. -/
theorem parseIntGo_repr10 (n : Nat) :
    parseIntGo (repr10 n) = if n ≤ maxI64 then some (n : Int) else none := by
  rcases hr : repr10 n with _ | ⟨c, cs⟩
  · exact absurd hr (repr10_ne_nil n)
  · have hc : c.isDigit = true := repr10_digits n c (by rw [hr]; simp)
    show (if c = '+' then _ else if c = '-' then _ else _) = _
    rw [if_neg (isDigit_ne_plus hc), if_neg (isDigit_ne_minus hc)]
    rw [← hr, digitsVal_repr10 n]
    rfl

/-! ## Shape lemmas: headers built from digit strings -/

theorem dropWhile_of_none {p : Char → Bool} {l : List Char}
    (h : ∀ c ∈ l, p c = false) : l.dropWhile p = l := by
  cases l with
  | nil => rfl
  | cons c t =>
    rw [List.dropWhile_cons, h c (List.mem_cons_self _ _)]
    simp

theorem trimSpace_of_noSpace {l : List Char}
    (h : ∀ c ∈ l, isGoSpace c = false) : trimSpace l = l := by
  unfold trimSpace
  rw [dropWhile_of_none h,
    dropWhile_of_none (fun c hc => h c (List.mem_reverse.mp hc)),
    List.reverse_reverse]

theorem splitOnComma_no_comma {l : List Char}
    (h : ∀ c ∈ l, ¬ c = ',') : splitOnComma l = [l] := by
  induction l with
  | nil => rfl
  | cons c t ih =>
    rw [splitOnComma, ih (fun x hx => h x (List.mem_cons_of_mem _ hx))]
    dsimp only
    rw [if_neg (h c (List.mem_cons_self _ _))]

theorem splitAtDash_append {xs : List Char} (ys : List Char)
    (h : ∀ c ∈ xs, ¬ c = '-') :
    splitAtDash (xs ++ '-' :: ys) = some (xs, ys) := by
  induction xs with
  | nil => simp [splitAtDash]
  | cons c t ih =>
    rw [List.cons_append, splitAtDash, if_neg (h c (List.mem_cons_self _ _)),
      ih (fun x hx => h x (List.mem_cons_of_mem _ hx))]

theorem isPrefixOf_append_self (l t : List Char) :
    l.isPrefixOf (l ++ t) = true := by
  induction l with
  | nil => simp [List.isPrefixOf]
  | cons c m ih => simp [List.isPrefixOf, ih]

/-- Characters of the `a-b` spec body: digits and one dash. -/
theorem mem_pairBody {a b : Nat} {c : Char}
    (h : c ∈ repr10 a ++ '-' :: repr10 b) :
    c.isDigit = true ∨ c = '-' := by
  rcases List.mem_append.mp h with h | h
  · exact Or.inl (repr10_digits a c h)
  · rcases List.mem_cons.mp h with rfl | h
    · exact Or.inr rfl
    · exact Or.inl (repr10_digits b c h)

theorem trimSpace_repr10 (n : Nat) : trimSpace (repr10 n) = repr10 n :=
  trimSpace_of_noSpace fun c hc => isDigit_not_space (repr10_digits n c hc)

/-- The full `bytes=a-b` header evaluates to the single parsed spec. -/
theorem parseRange_pair_eval (size : Int) (a b : Nat) :
    parseRange (bytesLit ++ (repr10 a ++ '-' :: repr10 b)) size =
      match parseOne size (repr10 a ++ '-' :: repr10 b) with
      | none => none
      | some r => some [r] := by
  have hne : bytesLit ++ (repr10 a ++ '-' :: repr10 b) ≠ [] := by
    simp [bytesLit]
  rw [parseRange, if_neg hne,
    if_pos (isPrefixOf_append_self bytesLit (repr10 a ++ '-' :: repr10 b))]
  have hdrop : (bytesLit ++ (repr10 a ++ '-' :: repr10 b)).drop 6 =
      repr10 a ++ '-' :: repr10 b := by
    rw [show (6 : Nat) = bytesLit.length from rfl, List.drop_left]
  rw [hdrop]
  have hcomma : ∀ c ∈ repr10 a ++ '-' :: repr10 b, ¬ c = ',' := by
    intro c hc
    rcases mem_pairBody hc with h | rfl
    · exact isDigit_ne_comma h
    · decide
  rw [splitOnComma_no_comma hcomma]
  have hsp : ∀ c ∈ repr10 a ++ '-' :: repr10 b, isGoSpace c = false := by
    intro c hc
    rcases mem_pairBody hc with h | rfl
    · exact isDigit_not_space h
    · decide
  have htrim := trimSpace_of_noSpace hsp
  have hbody : repr10 a ++ '-' :: repr10 b ≠ [] := by
    intro hcon
    exact repr10_ne_nil a (List.append_eq_nil.mp hcon).1
  rw [parseLoop]
  rw [htrim, if_neg hbody]
  cases hpo : parseOne size (repr10 a ++ '-' :: repr10 b) with
  | none => rfl
  | some r =>
    dsimp only
    by_cases hfull : r.start = 0 ∧ r.endIdx = size - 1
    · rw [if_pos hfull]
      dsimp only
      rw [if_neg (by simp)]
      rfl
    · rw [if_neg hfull, parseLoop]
      dsimp only
      rw [if_neg (by simp)]
      rfl

/-- The structure of parseOne on an `a-b` spec. -/
theorem parseOne_pair_shape (size : Int) (a b : Nat) :
    parseOne size (repr10 a ++ '-' :: repr10 b) =
      match parseIntGo (repr10 a) with
      | none => none
      | some i =>
        if i ≥ size ∨ i < 0 then none
        else
          match parseIntGo (repr10 b) with
          | none => none
          | some j =>
            if j ≥ size ∨ j < 0 then none
            else if j < i then none
            else some ⟨i, j, j - i + 1⟩ := by
  have hdash : ∀ c ∈ repr10 a, ¬ c = '-' :=
    fun c hc => isDigit_ne_minus (repr10_digits a c hc)
  rw [parseOne, splitAtDash_append (repr10 b) hdash]
  dsimp only
  rw [trimSpace_repr10 a, trimSpace_repr10 b, if_neg (repr10_ne_nil a)]
  cases hia : parseIntGo (repr10 a) with
  | none => rfl
  | some i =>
    dsimp only
    by_cases hge : i ≥ size ∨ i < 0
    · rw [if_pos hge, if_pos hge]
    · rw [if_neg hge, if_neg hge, if_neg (repr10_ne_nil b)]

/-! ## parseOne on concrete spec families -/

/-- A well-formed in-bounds `a-b` spec parses to the expected range. -/
theorem parseOne_pair_ok (size : Int) (a b : Nat)
    (hab : (a : Int) ≤ (b : Int)) (hbs : (b : Int) < size)
    (hmax : size ≤ (maxI64 : Int)) :
    parseOne size (repr10 a ++ '-' :: repr10 b) =
      some ⟨(a : Int), (b : Int), (b : Int) - (a : Int) + 1⟩ := by
  have hbm : b ≤ maxI64 := by
    have : (b : Int) ≤ (maxI64 : Int) := by omega
    exact_mod_cast this
  have ham : a ≤ maxI64 := by
    have : (a : Int) ≤ (maxI64 : Int) := by omega
    exact_mod_cast this
  rw [parseOne_pair_shape, parseIntGo_repr10 a, parseIntGo_repr10 b,
    if_pos ham, if_pos hbm]
  dsimp only
  rw [if_neg (by omega), if_neg (by omega), if_neg (by omega)]

/-- A reversed `a-b` spec (b < a) is rejected. -/
theorem parseOne_pair_rev (size : Int) (a b : Nat)
    (h : (b : Int) < (a : Int)) :
    parseOne size (repr10 a ++ '-' :: repr10 b) = none := by
  rw [parseOne_pair_shape, parseIntGo_repr10 a, parseIntGo_repr10 b]
  by_cases ham : a ≤ maxI64
  · rw [if_pos ham]
    dsimp only
    by_cases hge : (a : Int) ≥ size ∨ (a : Int) < 0
    · rw [if_pos hge]
    · rw [if_neg hge]
      by_cases hbm : b ≤ maxI64
      · rw [if_pos hbm]
        dsimp only
        by_cases hgb : (b : Int) ≥ size ∨ (b : Int) < 0
        · rw [if_pos hgb]
        · rw [if_neg hgb, if_pos h]
      · rw [if_neg hbm]
  · rw [if_neg ham]

/-- An `a-b` spec whose start is at or past the resource size is rejected. -/
theorem parseOne_pair_oob (size : Int) (a b : Nat)
    (h : size ≤ (a : Int)) :
    parseOne size (repr10 a ++ '-' :: repr10 b) = none := by
  rw [parseOne_pair_shape, parseIntGo_repr10 a]
  by_cases ham : a ≤ maxI64
  · rw [if_pos ham]
    dsimp only
    rw [if_pos (Or.inl (by omega))]
  · rw [if_neg ham]

/-- C8: for all sizes S (within int64) and 0 ≤ start ≤ end < S, the header
`bytes=start-end` parses to exactly the one expected ByteRange with
length end-start+1; reversed bounds and out-of-bounds starts are rejected,
as are specs whose numeric fields fail to parse. -/
theorem c8_single_range_specs :
    (∀ (size : Int) (a b : Nat), (a : Int) ≤ (b : Int) → (b : Int) < size →
      size ≤ (maxI64 : Int) →
      parseRange (bytesLit ++ (repr10 a ++ '-' :: repr10 b)) size =
        some [⟨(a : Int), (b : Int), (b : Int) - (a : Int) + 1⟩]) ∧
    (∀ (size : Int) (a b : Nat), (b : Int) < (a : Int) →
      parseRange (bytesLit ++ (repr10 a ++ '-' :: repr10 b)) size = none) ∧
    (∀ (size : Int) (a b : Nat), size ≤ (a : Int) →
      parseRange (bytesLit ++ (repr10 a ++ '-' :: repr10 b)) size = none) ∧
    (∀ (size : Int) (t s0 e0 : List Char), splitAtDash t = some (s0, e0) →
      trimSpace s0 ≠ [] → parseIntGo (trimSpace s0) = none →
      parseOne size t = none) ∧
    parseRange ((r"bytes=12x-20").toList) 100 = none := by
  refine ⟨?_, ?_, ?_, ?_, ?_⟩
  · intro size a b hab hbs hmax
    rw [parseRange_pair_eval, parseOne_pair_ok size a b hab hbs hmax]
  · intro size a b h
    rw [parseRange_pair_eval, parseOne_pair_rev size a b h]
  · intro size a b h
    rw [parseRange_pair_eval, parseOne_pair_oob size a b h]
  · intro size t s0 e0 hsd hne hnone
    rw [parseOne, hsd]
    dsimp only
    rw [if_neg hne, hnone]
  · decide

/-! ## The whole-resource short-circuit of parseRange (C3) -/

/-- A loop prefix that finished without tripping `noOverlap` continues on the
remaining specs with its accumulated ranges. -/
theorem parseLoop_append (size : Int) (l₁ l₂ : List (List Char))
    (acc rs : List httpRange)
    (h : parseLoop size acc l₁ = some (rs, false)) :
    parseLoop size acc (l₁ ++ l₂) = parseLoop size rs l₂ := by
  induction l₁ generalizing acc with
  | nil =>
    rw [parseLoop] at h
    injection h with h
    injection h with h1 _
    rw [List.nil_append, h1]
  | cons ra t ih =>
    rw [parseLoop] at h
    rw [List.cons_append, parseLoop]
    by_cases ht : trimSpace ra = []
    · rw [if_pos ht] at h ⊢
      exact ih _ h
    · rw [if_neg ht] at h ⊢
      cases hpo : parseOne size (trimSpace ra) with
      | none => rw [hpo] at h; exact absurd h (by simp)
      | some r =>
        rw [hpo] at h
        dsimp only at h
        by_cases hfull : r.start = 0 ∧ r.endIdx = size - 1
        · rw [if_pos hfull] at h
          injection h with h
          injection h with _ h2
          cases h2
        · rw [if_neg hfull] at h
          dsimp only
          rw [if_neg hfull]
          exact ih _ h

/-- A spec parsing to the whole resource stops the loop with `noOverlap`. -/
theorem parseLoop_full (size : Int) (acc : List httpRange)
    (fullspec : List Char) (rest : List (List Char))
    (hne : trimSpace fullspec ≠ [])
    (hful : parseOne size (trimSpace fullspec) = some ⟨0, size - 1, size⟩) :
    parseLoop size acc (fullspec :: rest) =
      some (acc ++ [⟨0, size - 1, size⟩], true) := by
  rw [parseLoop]
  rw [if_neg hne, hful]
  dsimp only
  rw [if_pos ⟨rfl, rfl⟩]

/-- C3 (amended): when the comma-split specs are a prefix that parses without
spanning the whole resource, then a whole-resource spec, then anything,
parsing succeeds, stops at the whole-resource spec (the result is the same
for any later specs), and returns exactly one ByteRange — the FIRST parsed
range, which is the whole-resource range only when the whole-resource spec
is the first spec that parses. -/
theorem c3_whole_resource_shortcircuit (s : List Char) (size : Int)
    (pre rest : List (List Char)) (fullspec : List Char)
    (rs₀ : List httpRange)
    (hs : s ≠ [])
    (hpfx : bytesLit.isPrefixOf s = true)
    (hsplit : splitOnComma (s.drop 6) = pre ++ fullspec :: rest)
    (hpre : parseLoop size [] pre = some (rs₀, false))
    (hne : trimSpace fullspec ≠ [])
    (hful : parseOne size (trimSpace fullspec) = some ⟨0, size - 1, size⟩) :
    (∀ rest₂, parseLoop size [] (pre ++ fullspec :: rest₂) =
      some (rs₀ ++ [⟨0, size - 1, size⟩], true)) ∧
    parseRange s size =
      some ((rs₀ ++ [(⟨0, size - 1, size⟩ : httpRange)]).take 1) := by
  have hloop : ∀ rest₂ : List (List Char),
      parseLoop size [] (pre ++ fullspec :: rest₂) =
        some (rs₀ ++ [⟨0, size - 1, size⟩], true) := by
    intro rest₂
    rw [parseLoop_append size pre (fullspec :: rest₂) [] rs₀ hpre,
      parseLoop_full size rs₀ fullspec rest₂ hne hful]
  refine ⟨hloop, ?_⟩
  rw [parseRange, if_neg hs, if_pos hpfx, hsplit, hloop rest]
  dsimp only
  cases rs₀ with
  | nil =>
    rw [if_neg (by simp)]
    rfl
  | cons r t =>
    rw [if_pos ⟨rfl, by simp⟩]

/-- C3 counterexample: on `bytes=5-10,0-99` against size 100, the second
spec spans the whole resource, yet the function returns the FIRST range
5-10, not the whole-resource range 0-99 the claim promises. -/
theorem c3_counterexample :
    parseRange ((r"bytes=5-10,0-99").toList) 100 =
      some [{ start := 5, endIdx := 10, length := 6 }] ∧
    parseRange ((r"bytes=5-10,0-99").toList) 100 ≠
      some [{ start := 0, endIdx := 99, length := 100 }] := by
  constructor
  · decide
  · decide

/-! ## The ByteRange invariant of parseRange results (C4) -/

/-- Every range parseOne accepts satisfies the ByteRange invariant, provided
the resource is non-empty and a suffix-form spec asks for at least 1 byte. -/
theorem parseOne_bounds (size : Int) (ra : List Char) (r : httpRange)
    (hsize : 1 ≤ size)
    (hsuf : specSuffixOkB ra = true)
    (hp : parseOne size (trimSpace ra) = some r) :
    rangeWithin size r := by
  rw [parseOne] at hp
  unfold specSuffixOkB at hsuf
  cases hsd : splitAtDash (trimSpace ra) with
  | none => rw [hsd] at hp; cases hp
  | some pair =>
    obtain ⟨s0, e0⟩ := pair
    rw [hsd] at hp hsuf
    dsimp only at hp hsuf
    by_cases hs0 : trimSpace s0 = []
    · rw [if_pos hs0] at hp hsuf
      cases hie : parseIntGo (trimSpace e0) with
      | none => rw [hie] at hp; cases hp
      | some i =>
        rw [hie] at hp hsuf
        dsimp only at hp hsuf
        have hi : (1 : Int) ≤ i := of_decide_eq_true hsuf
        injection hp with hp
        subst hp
        by_cases hgt : i > size
        · rw [if_pos hgt]
          refine ⟨?_, ?_, ?_, ?_⟩ <;> dsimp only <;> omega
        · rw [if_neg hgt]
          refine ⟨?_, ?_, ?_, ?_⟩ <;> dsimp only <;> omega
    · rw [if_neg hs0] at hp
      cases his : parseIntGo (trimSpace s0) with
      | none => rw [his] at hp; cases hp
      | some i =>
        rw [his] at hp
        dsimp only at hp
        by_cases hge : i ≥ size ∨ i < 0
        · rw [if_pos hge] at hp; cases hp
        · rw [if_neg hge] at hp
          push_neg at hge
          by_cases he0 : trimSpace e0 = []
          · rw [if_pos he0] at hp
            injection hp with hp
            subst hp
            refine ⟨?_, ?_, ?_, ?_⟩ <;> dsimp only <;> omega
          · rw [if_neg he0] at hp
            cases hje : parseIntGo (trimSpace e0) with
            | none => rw [hje] at hp; cases hp
            | some j =>
              rw [hje] at hp
              dsimp only at hp
              by_cases hgj : j ≥ size ∨ j < 0
              · rw [if_pos hgj] at hp; cases hp
              · rw [if_neg hgj] at hp
                push_neg at hgj
                by_cases hji : j < i
                · rw [if_pos hji] at hp; cases hp
                · rw [if_neg hji] at hp
                  injection hp with hp
                  subst hp
                  refine ⟨?_, ?_, ?_, ?_⟩ <;> dsimp only <;> omega

/-- The loop only accumulates ranges satisfying the invariant. -/
theorem parseLoop_bounds (size : Int) (hsize : 1 ≤ size) :
    ∀ (specs : List (List Char)) (acc rs : List httpRange) (b : Bool),
      (∀ ra ∈ specs, specSuffixOkB ra = true) →
      (∀ r ∈ acc, rangeWithin size r) →
      parseLoop size acc specs = some (rs, b) →
      ∀ r ∈ rs, rangeWithin size r := by
  intro specs
  induction specs with
  | nil =>
    intro acc rs b _ hacc hp
    rw [parseLoop] at hp
    injection hp with hp
    injection hp with h1 _
    subst h1
    exact hacc
  | cons ra t ih =>
    intro acc rs b hsuf hacc hp
    rw [parseLoop] at hp
    by_cases ht : trimSpace ra = []
    · rw [if_pos ht] at hp
      exact ih _ _ _ (fun x hx => hsuf x (List.mem_cons_of_mem _ hx)) hacc hp
    · rw [if_neg ht] at hp
      cases hpo : parseOne size (trimSpace ra) with
      | none => rw [hpo] at hp; cases hp
      | some r =>
        rw [hpo] at hp
        dsimp only at hp
        have hr := parseOne_bounds size ra r hsize
          (hsuf ra (List.mem_cons_self _ _)) hpo
        have hext : ∀ x ∈ acc ++ [r], rangeWithin size x := by
          intro x hx
          rcases List.mem_append.mp hx with hx | hx
          · exact hacc x hx
          · rcases List.mem_singleton.mp hx with rfl
            exact hr
        by_cases hfull : r.start = 0 ∧ r.endIdx = size - 1
        · rw [if_pos hfull] at hp
          injection hp with hp
          injection hp with h1 _
          subst h1
          exact hext
        · rw [if_neg hfull] at hp
          exact ih _ _ _ (fun x hx => hsuf x (List.mem_cons_of_mem _ hx)) hext hp

/-- C4 (amended): for a resource of size at least 1 and a header whose
suffix-form specs each ask for at least one byte, every ByteRange a
successful parse returns satisfies 0 ≤ start ≤ end ≤ S-1 and
length = end-start+1.  (A suffix spec `-0` — or a negative suffix value —
produces start = S, end = S-1, refuting the unconditional claim.) -/
theorem c4_byterange_invariant (s : List Char) (size : Int)
    (rs : List httpRange)
    (hsize : 1 ≤ size)
    (hsuf : ∀ ra ∈ splitOnComma (s.drop 6), specSuffixOkB ra = true)
    (hp : parseRange s size = some rs) :
    ∀ r ∈ rs, rangeWithin size r := by
  rw [parseRange] at hp
  by_cases hs : s = []
  · rw [if_pos hs] at hp
    injection hp with hp
    subst hp
    intro r hr
    cases hr
  · rw [if_neg hs] at hp
    by_cases hpfx : bytesLit.isPrefixOf s = true
    · rw [if_pos hpfx] at hp
      cases hpl : parseLoop size [] (splitOnComma (s.drop 6)) with
      | none => rw [hpl] at hp; cases hp
      | some pr =>
        obtain ⟨rs', nov⟩ := pr
        rw [hpl] at hp
        dsimp only at hp
        have hb := parseLoop_bounds size hsize _ [] rs' nov hsuf
          (by intro r hr; cases hr) hpl
        by_cases hc : nov = true ∧ rs'.length > 1
        · rw [if_pos hc] at hp
          injection hp with hp
          subst hp
          intro r hr
          exact hb r (List.take_subset _ _ hr)
        · rw [if_neg hc] at hp
          injection hp with hp
          subst hp
          exact hb
    · rw [if_neg hpfx] at hp
      cases hp

/-- C4 counterexample: `bytes=-0` on a 10-byte resource parses successfully
to the single range start=10, end=9 — violating 0 ≤ start ≤ end ≤ S-1. -/
theorem c4_counterexample :
    parseRange ((r"bytes=-0").toList) 10 =
      some [{ start := 10, endIdx := 9, length := 0 }] ∧
    ¬ (∀ r ∈ (parseRange ((r"bytes=-0").toList) 10).getD [],
        0 ≤ r.start ∧ r.start ≤ r.endIdx ∧ r.endIdx ≤ 10 - 1 ∧
          r.length = r.endIdx - r.start + 1) := by
  constructor
  · decide
  · decide

/-! ## Evaluation lemmas for the serve step -/

theorem serveFile_nonvideo (ct rh : List Char) (content : List Nat)
    (hv : ¬ videoLit.isPrefixOf ct = true) :
    serveFile ct rh content =
      ⟨200, some noneWordLit, none, (content.length : Int), content, some 5⟩ := by
  unfold serveFile
  rw [if_neg hv]

theorem serveFile_video_norange (ct rh : List Char) (content : List Nat)
    (hv : videoLit.isPrefixOf ct = true) (hrh : rh = []) :
    serveFile ct rh content =
      ⟨200, some bytesWordLit, none, (content.length : Int), content, none⟩ := by
  unfold serveFile
  rw [if_pos hv, if_pos hrh]

theorem serveFile_video_badparse (ct rh : List Char) (content : List Nat)
    (hv : videoLit.isPrefixOf ct = true) (hrh : ¬ rh = [])
    (hpr : parseRange rh (content.length : Int) = none) :
    serveFile ct rh content =
      ⟨200, some bytesWordLit, none, (content.length : Int), content, none⟩ := by
  unfold serveFile
  rw [if_pos hv, if_neg hrh, hpr]

theorem serveFile_video_multi (ct rh : List Char) (content : List Nat)
    (rs : List httpRange)
    (hv : videoLit.isPrefixOf ct = true) (hrh : ¬ rh = [])
    (hpr : parseRange rh (content.length : Int) = some rs)
    (hlen : rs.length ≠ 1) :
    serveFile ct rh content =
      ⟨200, some bytesWordLit, none, (content.length : Int), content, none⟩ := by
  unfold serveFile
  rw [if_pos hv, if_neg hrh, hpr]
  cases rs with
  | nil => rfl
  | cons a t =>
    cases t with
    | nil => exact absurd rfl hlen
    | cons b t2 => rfl

theorem serveFile_video_single (ct rh : List Char) (content : List Nat)
    (ra : httpRange)
    (hv : videoLit.isPrefixOf ct = true) (hrh : ¬ rh = [])
    (hpr : parseRange rh (content.length : Int) = some [ra]) :
    serveFile ct rh content =
      ⟨206, some bytesWordLit,
        some (ra.start, ra.endIdx, (content.length : Int)), ra.length,
        (content.drop ra.start.toNat).take ra.length.toNat,
        if ra.endIdx ≥ (content.length : Int) - 1 ∨
            ra.endIdx ≥ (content.length : Int) - 1024 * 1024 then some 10
        else none⟩ := by
  unfold serveFile
  rw [if_pos hv, if_neg hrh, hpr]

/-- C7: 206 is produced only for a video content type with a Range header
parsing to exactly one range; a non-video resource always gets 200 with
Accept-Ranges none and the full body; a video resource with an unparsable or
multi-range header falls back to 200 with the full body; range handling
never produces any status other than 200 or 206. -/
theorem c7_partial_content_policy :
    (∀ (ct rh : List Char) (content : List Nat),
      (serveFile ct rh content).status = 206 →
      videoLit.isPrefixOf ct = true ∧
        ∃ ra, parseRange rh (content.length : Int) = some [ra]) ∧
    (∀ (ct rh : List Char) (content : List Nat),
      ¬ videoLit.isPrefixOf ct = true →
      (serveFile ct rh content).status = 200 ∧
        (serveFile ct rh content).acceptRanges = some noneWordLit ∧
        (serveFile ct rh content).body = content) ∧
    (∀ (ct rh : List Char) (content : List Nat),
      videoLit.isPrefixOf ct = true → rh ≠ [] →
      (¬ ∃ ra, parseRange rh (content.length : Int) = some [ra]) →
      (serveFile ct rh content).status = 200 ∧
        (serveFile ct rh content).body = content) ∧
    (∀ (ct rh : List Char) (content : List Nat),
      (serveFile ct rh content).status = 200 ∨
        (serveFile ct rh content).status = 206) := by
  have hcase : ∀ (ct rh : List Char) (content : List Nat),
      (∃ ra, parseRange rh (content.length : Int) = some [ra] ∧
        videoLit.isPrefixOf ct = true ∧ rh ≠ [] ∧
        (serveFile ct rh content).status = 206) ∨
      ((serveFile ct rh content).status = 200 ∧
        (serveFile ct rh content).body = content) := by
    intro ct rh content
    by_cases hv : videoLit.isPrefixOf ct = true
    · by_cases hrh : rh = []
      · right
        rw [serveFile_video_norange ct rh content hv hrh]
        exact ⟨rfl, rfl⟩
      · cases hpr : parseRange rh (content.length : Int) with
        | none =>
          right
          rw [serveFile_video_badparse ct rh content hv hrh hpr]
          exact ⟨rfl, rfl⟩
        | some rs =>
          by_cases hone : rs.length = 1
          · cases rs with
            | nil => simp at hone
            | cons a t =>
              cases t with
              | nil =>
                left
                refine ⟨a, rfl, hv, hrh, ?_⟩
                rw [serveFile_video_single ct rh content a hv hrh hpr]
              | cons b t2 => simp at hone
          · right
            rw [serveFile_video_multi ct rh content rs hv hrh hpr hone]
            exact ⟨rfl, rfl⟩
    · right
      rw [serveFile_nonvideo ct rh content hv]
      exact ⟨rfl, rfl⟩
  refine ⟨?_, ?_, ?_, ?_⟩
  · intro ct rh content h206
    rcases hcase ct rh content with ⟨ra, hpr, hv, _, _⟩ | ⟨h200, _⟩
    · exact ⟨hv, ra, hpr⟩
    · rw [h200] at h206
      cases h206
  · intro ct rh content hv
    rw [serveFile_nonvideo ct rh content hv]
    exact ⟨rfl, rfl, rfl⟩
  · intro ct rh content hv hrh hno
    rcases hcase ct rh content with ⟨ra, hpr, _, _, _⟩ | h
    · exact absurd ⟨ra, hpr⟩ hno
    · exact h
  · intro ct rh content
    rcases hcase ct rh content with ⟨_, _, _, _, h⟩ | ⟨h, _⟩
    · exact Or.inr h
    · exact Or.inl h

/-- C10: a video resource served in full — no Range header, a failed parse,
or a multi-range result — schedules no deferred invalidation and leaves the
cache untouched by the delivery; a deferred invalidation of a video entry is
scheduled only after serving a single range ending at or within 1 MiB of the
final byte, and then with the 10-second delay. -/
theorem c10_video_fullserve_no_cleanup :
    (∀ (ct rh : List Char) (content : List Nat) (s : CacheState)
        (id : List Char),
      videoLit.isPrefixOf ct = true →
      (rh = [] ∨ parseRange rh (content.length : Int) = none ∨
        (∃ rs, parseRange rh (content.length : Int) = some rs ∧
          rs.length ≠ 1)) →
      (serveFile ct rh content).cleanupDelay = none ∧
        cacheAfterDelivery (serveFile ct rh content) s id = s) ∧
    (∀ (ct rh : List Char) (content : List Nat) (d : Nat),
      videoLit.isPrefixOf ct = true →
      (serveFile ct rh content).cleanupDelay = some d →
      d = 10 ∧ ∃ ra, parseRange rh (content.length : Int) = some [ra] ∧
        ra.endIdx ≥ (content.length : Int) - 1024 * 1024) := by
  constructor
  · intro ct rh content s id hv hfull
    have hres : (serveFile ct rh content).cleanupDelay = none := by
      rcases hfull with hrh | hpr | ⟨rs, hpr, hlen⟩
      · rw [serveFile_video_norange ct rh content hv hrh]
      · by_cases hrh : rh = []
        · rw [serveFile_video_norange ct rh content hv hrh]
        · rw [serveFile_video_badparse ct rh content hv hrh hpr]
      · by_cases hrh : rh = []
        · rw [serveFile_video_norange ct rh content hv hrh]
        · rw [serveFile_video_multi ct rh content rs hv hrh hpr hlen]
    refine ⟨hres, ?_⟩
    unfold cacheAfterDelivery
    rw [hres]
  · intro ct rh content d hv hd
    by_cases hrh : rh = []
    · rw [serveFile_video_norange ct rh content hv hrh] at hd
      cases hd
    · cases hpr : parseRange rh (content.length : Int) with
      | none =>
        rw [serveFile_video_badparse ct rh content hv hrh hpr] at hd
        cases hd
      | some rs =>
        by_cases hone : rs.length = 1
        · cases rs with
          | nil => simp at hone
          | cons a t =>
            cases t with
            | nil =>
              rw [serveFile_video_single ct rh content a hv hrh hpr] at hd
              dsimp only at hd
              by_cases hcond : a.endIdx ≥ (content.length : Int) - 1 ∨
                  a.endIdx ≥ (content.length : Int) - 1024 * 1024
              · rw [if_pos hcond] at hd
                injection hd with hd
                refine ⟨hd.symm, a, rfl, ?_⟩
                rcases hcond with h | h <;> omega
              · rw [if_neg hcond] at hd
                cases hd
            | cons b t2 => simp at hone
        · rw [serveFile_video_multi ct rh content rs hv hrh hpr hone] at hd
          cases hd

/-! ## Blob assembler behaviour (C1, C9) -/

/-- When every chunk resolves within the fuel bound, its fetch succeeds and
the client copy succeeds, the loop writes exactly the concatenation of the
chunk bodies after what was already written. -/
theorem blobLoop_done (env : BlobEnv) (fuel : Nat)
    (urls : List Char → List Char) (chunks : List Char → List Nat) :
    ∀ (ls : List (List Char)),
      (∀ line ∈ ls,
        (∃ slept, resolveRetry (env.resolveSeq (removeSpaces line)) fuel =
          some (urls line, slept)) ∧
        env.fetch (urls line) = some (chunks line) ∧
        env.copyFails (chunks line) = false) →
      ∀ acc, blobLoop env fuel ls acc = .done (acc ++ (ls.map chunks).flatten) := by
  intro ls
  induction ls with
  | nil =>
    intro _ acc
    rw [blobLoop]
    simp
  | cons line rest ih =>
    intro h acc
    obtain ⟨⟨slept, hres⟩, hfetch, hcopy⟩ := h line (List.mem_cons_self _ _)
    rw [blobLoop, hres]
    simp only [hfetch, hcopy, Bool.false_eq_true, if_false]
    rw [ih (fun x hx => h x (List.mem_cons_of_mem _ hx)) (acc ++ chunks line)]
    simp [List.append_assoc]

/-- C1: an identifier beginning with the reserved prefix is routed to the
blob path, and when every chunk identifier of the manifest resolves (its
retry loop reaches a URL, the URL fetch returns the chunk body, and the copy
to the client succeeds) the delivered body is byte-identical to the
concatenation of the chunks in manifest order. -/
theorem c1_blob_routing_and_concatenation :
    (∀ path : List Char,
      blobPrefixLit.isPrefixOf (goTrimPrefix path fileRouteLit) = true →
      routeD path = .blob (goTrimPrefix path fileRouteLit)) ∧
    (∀ (magic sizeTag : List Char) (env : BlobEnv) (fuel : Nat)
        (lines : List (List Char)) (out : BlobOutcome)
        (urls : List Char → List Char) (chunks : List Char → List Nat),
      handleBlobFile magic sizeTag env fuel lines = some out →
      (∀ line ∈ lines.drop (manifestStart sizeTag lines),
        (∃ slept, resolveRetry (env.resolveSeq (removeSpaces line)) fuel =
          some (urls line, slept)) ∧
        env.fetch (urls line) = some (chunks line) ∧
        env.copyFails (chunks line) = false) →
      out = .done
        (((lines.drop (manifestStart sizeTag lines)).map chunks).flatten)) := by
  constructor
  · intro path h
    unfold routeD
    rw [if_neg, if_pos h]
    intro heq
    rw [heq] at h
    exact absurd h (by decide)
  · intro magic sizeTag env fuel lines out urls chunks hbf hall
    cases lines with
    | nil => cases hbf
    | cons m t =>
      cases t with
      | nil => cases hbf
      | cons f rest =>
        rw [handleBlobFile] at hbf
        by_cases hm : m = magic
        · rw [if_pos hm] at hbf
          injection hbf with hbf
          rw [← hbf]
          unfold handleBlobDownload
          exact blobLoop_done env fuel urls chunks _ hall []
        · rw [if_neg hm] at hbf
          cases hbf

/-- The resolve loop at the least successful attempt index. -/
theorem resolveRetryAux_first (f : Nat → Option (List Char)) (n : Nat)
    (u : List Char) (hn : f n = some u) (hmin : ∀ m, m < n → f m = none) :
    ∀ (fuel k slept : Nat), k ≤ n → n - k < fuel →
      resolveRetryAux f slept k fuel = some (u, slept + 5 * (n - k)) := by
  intro fuel
  induction fuel with
  | zero => intro k slept _ h; omega
  | succ fuel ih =>
    intro k slept hk hfuel
    by_cases hkn : k = n
    · subst hkn
      rw [resolveRetryAux, hn]
      rw [Nat.sub_self]
      rfl
    · have hlt : k < n := by omega
      rw [resolveRetryAux, hmin k hlt]
      have heq : slept + 5 + 5 * (n - (k + 1)) = slept + 5 * (n - k) := by omega
      rw [ih (k + 1) (slept + 5) (by omega) (by omega), heq]

/-- C9: chunk resolution is retried without bound — if the resolver never
succeeds the loop returns within no finite number of attempts — with a fixed
5-second backoff before every retry (total backoff 5·n when attempt n is the
first success); once the URL of a chunk is resolved, a transport failure of its
fetch aborts the entire delivery at once, without retrying the chunk. -/
theorem c9_retry_forever_and_abort_on_fetch :
    (∀ (f : Nat → Option (List Char)), (∀ n, f n = none) →
      ∀ fuel slept k, resolveRetryAux f slept k fuel = none) ∧
    (∀ (f : Nat → Option (List Char)) (n : Nat) (u : List Char),
      f n = some u → (∀ m, m < n → f m = none) →
      ∀ fuel, n < fuel → resolveRetry f fuel = some (u, 5 * n)) ∧
    (∀ (env : BlobEnv) (fuel : Nat) (line : List Char)
        (rest : List (List Char)) (fs url : List Char) (slept : Nat),
      resolveRetry (env.resolveSeq (removeSpaces line)) fuel =
        some (url, slept) →
      env.fetch url = none →
      handleBlobDownload env fuel (line :: rest) 0 fs = .httpFailed []) := by
  refine ⟨?_, ?_, ?_⟩
  · intro f h fuel
    induction fuel with
    | zero => intro slept k; rfl
    | succ fuel ih =>
      intro slept k
      rw [resolveRetryAux, h k]
      exact ih (slept + 5) (k + 1)
  · intro f n u hn hmin fuel hfuel
    have h := resolveRetryAux_first f n u hn hmin fuel 0 0 (by omega) (by omega)
    rw [resolveRetry, h, Nat.sub_zero, Nat.zero_add]
  · intro env fuel line rest fs url slept hres hfetch
    unfold handleBlobDownload
    rw [List.drop_zero, blobLoop, hres]
    dsimp only
    rw [hfetch]

/-! ## Concrete witnesses -/

theorem c1_witness :
    routeD ((r"/d/blob-abc").toList) =
      .blob (goTrimPrefix ((r"/d/blob-abc").toList) fileRouteLit) ∧
    handleBlobFile ((r"tgstate-blob").toList) ((r"size:").toList)
      ⟨fun cid _ => some cid, fun _ => some [7, 8], fun _ => false⟩ 1
      [(r"tgstate-blob").toList, (r"file.bin").toList,
        (r"c1").toList, (r"c2").toList] =
      some (.done [7, 8, 7, 8]) := by
  constructor
  · exact c1_blob_routing_and_concatenation.1 _ (by decide)
  · have h := c1_blob_routing_and_concatenation.2
      ((r"tgstate-blob").toList) ((r"size:").toList)
      ⟨fun cid _ => some cid, fun _ => some [7, 8], fun _ => false⟩ 1
      [(r"tgstate-blob").toList, (r"file.bin").toList,
        (r"c1").toList, (r"c2").toList]
      (handleBlobDownload
        ⟨fun cid _ => some cid, fun _ => some [7, 8], fun _ => false⟩ 1
        [(r"tgstate-blob").toList, (r"file.bin").toList,
          (r"c1").toList, (r"c2").toList]
        (manifestStart ((r"size:").toList)
          [(r"tgstate-blob").toList, (r"file.bin").toList,
            (r"c1").toList, (r"c2").toList]) [])
      removeSpaces (fun _ => [7, 8]) rfl
      (fun line _ => ⟨⟨0, rfl⟩, rfl, rfl⟩)
    rw [show handleBlobFile ((r"tgstate-blob").toList) ((r"size:").toList)
        ⟨fun cid _ => some cid, fun _ => some [7, 8], fun _ => false⟩ 1
        [(r"tgstate-blob").toList, (r"file.bin").toList,
          (r"c1").toList, (r"c2").toList] =
      some (handleBlobDownload
        ⟨fun cid _ => some cid, fun _ => some [7, 8], fun _ => false⟩ 1
        [(r"tgstate-blob").toList, (r"file.bin").toList,
          (r"c1").toList, (r"c2").toList]
        (manifestStart ((r"size:").toList)
          [(r"tgstate-blob").toList, (r"file.bin").toList,
            (r"c1").toList, (r"c2").toList]) []) from rfl, h]
    rfl

theorem c3_witness :
    parseRange ((r"bytes=5-10,0-99").toList) 100 =
      some (([(⟨5, 10, 6⟩ : httpRange)] ++ [(⟨0, 99, 100⟩ : httpRange)]).take 1) := by
  have h := c3_whole_resource_shortcircuit ((r"bytes=5-10,0-99").toList) 100
    [(r"5-10").toList] [] ((r"0-99").toList) [⟨5, 10, 6⟩]
    (by decide) (by decide) (by decide) (by decide) (by decide) (by decide)
  exact h.2

theorem c4_witness :
    (1 : Int) ≤ 10 ∧ rangeWithin 10 ⟨7, 9, 3⟩ := by
  refine ⟨by norm_num, ?_⟩
  exact c4_byterange_invariant ((r"bytes=2-5,-3").toList) 10
    [⟨2, 5, 4⟩, ⟨7, 9, 3⟩] (by norm_num) (by decide) (by decide)
    ⟨7, 9, 3⟩ (by decide)

theorem c5_witness :
    let envS : FetchEnv :=
      ⟨fun i => if i = (r"vid").toList then some ((r"u1").toList) else none,
        true, fun u => if u = (r"u1").toList then some 200 else none, true⟩
    let envF : FetchEnv := ⟨fun _ => none, false, fun _ => none, false⟩
    let r₁ := getCachedFile envS 0 initCache ((r"vid").toList)
    let sA := sweep 1000 r₁.state
    let r₂ := getCachedFile envF 100 sA ((r"vid").toList)
    let sB := sweep 4000 r₂.state
    let r₃ := getCachedFile envS 5000 sB ((r"vid").toList)
    (r₁.result = .ok (cachePath ((r"vid").toList)) ∧ r₁.resolved = true ∧
      r₁.downloaded = true) ∧
    (r₂.result = .ok (cachePath ((r"vid").toList)) ∧ r₂.resolved = false ∧
      r₂.downloaded = false ∧ r₂.state.files = sA.files ∧
      r₂.state.disk = sA.disk ∧
      r₂.state.lastAccess = setk sA.lastAccess ((r"vid").toList) 100) ∧
    (lookupk sB.files ((r"vid").toList) = none ∧
      cachePath ((r"vid").toList) ∉ sB.disk) ∧
    (r₃.result = .ok (cachePath ((r"vid").toList)) ∧ r₃.resolved = true ∧
      r₃.downloaded = true) := by
  intro envS envF
  exact c5_cache_hit_then_expiry envS envF envS 0 1000 100 4000 5000
    initCache ((r"vid").toList) cacheInv_init rfl
    ⟨rfl, rfl, ⟨(r"u1").toList, rfl, rfl⟩⟩
    ⟨rfl, rfl, ⟨(r"u1").toList, rfl, rfl⟩⟩
    (by norm_num) (by norm_num)

theorem c6_witness :
    ((getCachedFile
        ⟨fun _ => some ((r"u2").toList), true, fun _ => none, true⟩
        0 initCache ((r"f1").toList)).result = .error .transportFailed ∧
      cachePath ((r"f1").toList) ∉
        (getCachedFile
          ⟨fun _ => some ((r"u2").toList), true, fun _ => none, true⟩
          0 initCache ((r"f1").toList)).state.disk) ∧
    ((getCachedFile
        ⟨fun _ => some ((r"u2").toList), true, fun _ => some 200, true⟩
        0 initCache ((r"f1").toList)).result =
      .ok (cachePath ((r"f1").toList)) ∧
      lookupk (getCachedFile
          ⟨fun _ => some ((r"u2").toList), true, fun _ => some 200, true⟩
          0 initCache ((r"f1").toList)).state.files ((r"f1").toList) =
        some (cachePath ((r"f1").toList))) := by
  constructor
  · have h := (c6_cold_fetch_error_handling
      ⟨fun _ => some ((r"u2").toList), true, fun _ => none, true⟩
      0 initCache ((r"f1").toList) ((r"u2").toList) rfl rfl rfl).1 rfl
    exact ⟨h.1, h.2.2.2⟩
  · have h := (c6_cold_fetch_error_handling
      ⟨fun _ => some ((r"u2").toList), true, fun _ => some 200, true⟩
      0 initCache ((r"f1").toList) ((r"u2").toList) rfl rfl rfl).2.2.2 rfl rfl
    exact ⟨h.1, h.2.1⟩

theorem c7_witness :
    videoLit.isPrefixOf ((r"video/mp4").toList) = true ∧
    ((serveFile ((r"text/plain").toList) ((r"bytes=0-4").toList)
        [0, 1, 2, 3, 4, 5, 6, 7, 8, 9]).status = 200 ∧
      (serveFile ((r"text/plain").toList) ((r"bytes=0-4").toList)
        [0, 1, 2, 3, 4, 5, 6, 7, 8, 9]).acceptRanges = some noneWordLit ∧
      (serveFile ((r"text/plain").toList) ((r"bytes=0-4").toList)
        [0, 1, 2, 3, 4, 5, 6, 7, 8, 9]).body =
        [0, 1, 2, 3, 4, 5, 6, 7, 8, 9]) ∧
    ((serveFile ((r"video/mp4").toList) ((r"bytes=9-5").toList)
        [0, 1, 2, 3, 4, 5, 6, 7, 8, 9]).status = 200 ∧
      (serveFile ((r"video/mp4").toList) ((r"bytes=9-5").toList)
        [0, 1, 2, 3, 4, 5, 6, 7, 8, 9]).body =
        [0, 1, 2, 3, 4, 5, 6, 7, 8, 9]) := by
  refine ⟨?_, ?_, ?_⟩
  · exact (c7_partial_content_policy.1 ((r"video/mp4").toList)
      ((r"bytes=0-4").toList) [0, 1, 2, 3, 4, 5, 6, 7, 8, 9] (by decide)).1
  · exact c7_partial_content_policy.2.1 _ _ _ (by decide)
  · refine c7_partial_content_policy.2.2.1 _ _ _ (by decide) (by decide) ?_
    rintro ⟨ra, hra⟩
    have hnone : parseRange ((r"bytes=9-5").toList)
        (([0, 1, 2, 3, 4, 5, 6, 7, 8, 9] : List Nat).length : Int) = none := by
      decide
    rw [hnone] at hra
    cases hra

theorem c8_witness :
    parseRange (bytesLit ++ (repr10 5 ++ '-' :: repr10 10)) 100 =
      some [⟨((5 : Nat) : Int), ((10 : Nat) : Int),
        ((10 : Nat) : Int) - ((5 : Nat) : Int) + 1⟩] ∧
    parseRange (bytesLit ++ (repr10 7 ++ '-' :: repr10 3)) 100 = none ∧
    parseRange (bytesLit ++ (repr10 100 ++ '-' :: repr10 200)) 50 = none := by
  refine ⟨?_, ?_, ?_⟩
  · exact c8_single_range_specs.1 100 5 10 (by norm_num) (by norm_num)
      (by norm_num [maxI64])
  · exact c8_single_range_specs.2.1 100 7 3 (by norm_num)
  · exact c8_single_range_specs.2.2.1 50 100 200 (by norm_num)

theorem c9_witness :
    resolveRetryAux (fun _ => (none : Option (List Char))) 0 0 3 = none ∧
    resolveRetry (fun n => if n = 2 then some ((r"u3").toList) else none) 5 =
      some ((r"u3").toList, 5 * 2) ∧
    handleBlobDownload
      ⟨fun _ _ => some ((r"u4").toList), fun _ => none, fun _ => false⟩ 1
      [(r"c9").toList] 0 [] = .httpFailed [] := by
  refine ⟨?_, ?_, ?_⟩
  · exact c9_retry_forever_and_abort_on_fetch.1 _ (fun _ => rfl) 3 0 0
  · exact c9_retry_forever_and_abort_on_fetch.2.1 _ 2 _ rfl
      (fun m hm => by rw [if_neg (by omega)]) 5 (by norm_num)
  · exact c9_retry_forever_and_abort_on_fetch.2.2 _ 1 ((r"c9").toList) []
      [] ((r"u4").toList) 0 rfl rfl

theorem c10_witness :
    ((serveFile ((r"video/mp4").toList) [] [0, 1, 2, 3, 4, 5, 6, 7, 8, 9]).cleanupDelay
        = none ∧
      cacheAfterDelivery
        (serveFile ((r"video/mp4").toList) [] [0, 1, 2, 3, 4, 5, 6, 7, 8, 9])
        initCache ((r"v2").toList) = initCache) ∧
    (10 : Nat) = 10 := by
  constructor
  · exact c10_video_fullserve_no_cleanup.1 _ [] _ initCache _ (by decide)
      (Or.inl rfl)
  · exact (c10_video_fullserve_no_cleanup.2 ((r"video/mp4").toList)
      ((r"bytes=5-9").toList) [0, 1, 2, 3, 4, 5, 6, 7, 8, 9] 10 (by decide)
      (by decide)).1

end TgState
